import Mathlib

/-!
Verification of the pointer-based binary heap in `heap.h`.

The C++ template classes `Node<T>` and `Heap<T>` are shallowly embedded:
`Node<T>*` pointers become an inductive binary tree (`Tree.nil` models the
`EMPTY`, i.e. null, pointer), the mutating member functions become pure
functions from the old state to the new state, and the `std::stack<Direction>`
is modelled as a `List Direction` whose head is the top of the stack.

Operations that the source guards with `assert`, and operations whose source
would dereference a null pointer (undefined behavior), return `none`; under
the heap's intended invariants those paths are unreachable.  `uint` counters
are modelled by `Nat` (no claim exercises 32-bit wrap-around).
-/

namespace HeapSpec

/-- Directions into the binary tree, from `typedef enum { L, R } Direction`. -/
inductive Direction : Type
  | L
  | R
  deriving DecidableEq, Repr

/-- The `Node<T>` binary-tree cell: one stored value (`data`) and the two
child ownership slots `left` and `right`, either of which may be `EMPTY`
(null).  `EMPTY` is modelled by the `nil` constructor. -/
inductive Tree (α : Type) : Type
  | nil : Tree α
  | node (data : α) (left right : Tree α) : Tree α
  deriving DecidableEq, Repr

variable {α : Type}

/-- The `Heap<T>` class: the owned root pointer `tree`, the node counter
`size` (a `uint` in the source, modelled by `Nat`), and the stored
`std::function<bool(T, T)> compare`. -/
structure Heap (α : Type) : Type where
  tree : Tree α
  size : Nat
  compare : α → α → Bool

/-- The custom constructor `Heap<T>::Heap(bool compare(T,T))`: an empty heap
(`size = DEFAULT_HEAP_SIZE = 0`, `tree = EMPTY`) with the given predicate. -/
def Heap.emptyWith (cmp : α → α → Bool) : Heap α :=
  { tree := Tree.nil, size := 0, compare := cmp }

/-- The default predicate `[](T a, T b) { return a > b; }` of the default
constructor `Heap<T>::Heap()`, instantiated at `T = Nat`. -/
def gtNat : Nat → Nat → Bool := fun a b => decide (a > b)

/-- A `(a, b) -> a < b` predicate at `T = Nat`, as used by the custom
predicate example in the specification. -/
def ltNat : Nat → Nat → Bool := fun a b => decide (a < b)

/-- The default constructor `Heap<T>::Heap()` instantiated at `T = Nat`:
empty heap comparing with `a > b` (a min-heap). -/
def emptyDefaultNat : Heap Nat := Heap.emptyWith gtNat

/-- Recursion worker for `Heap::_get_dirlist`, with an explicit fuel that
bounds the recursion depth (the source recursion strictly halves `n`, so a
fuel of `n` is never exhausted; the fuel keeps the function structurally
recursive and hence computable by the kernel). -/
def get_dirlist_go : Nat → Nat → List Direction → List Direction
  | 0, _, directions => directions
  | fuel + 1, n, directions =>
    if n < 2 then directions
    else get_dirlist_go fuel (n / 2)
      ((if n % 2 == 0 then Direction.L else Direction.R) :: directions)

/-- `Heap::_get_dirlist(n, directions)`: while `n >= 2`, push `L` for even
`n` and `R` for odd `n`, then recurse on `n / 2`.  Pushing onto the stack is
consing onto the list, so the head of the result is the top of the stack:
the direction produced by the most significant retained bit. -/
def get_dirlist_aux (n : Nat) (directions : List Direction) : List Direction :=
  get_dirlist_go n n directions

/-- `Heap::get_dirlist(n)`: directions from the root to the node at 1-based
level-order position `n`, starting from an empty stack. -/
def get_dirlist (n : Nat) : List Direction := get_dirlist_aux n []

/-- `Heap::_insert_leaf(tree, to_insert, dirlist)`.  The source asserts the
dirlist is non-empty (modelled by `none` for `[]`), pops the top direction
with `stack_pop`, and either attaches `to_insert` at that slot of the current
node (`tree->insert(direction, to_insert)`, overwriting the slot) when no
directions remain, or recurses into `tree->get_child(direction)`.  Walking
into a null pointer in the source is a null dereference; it is modelled by
`none`. -/
def insert_leaf_aux : Tree α → Tree α → List Direction → Option (Tree α)
  | _, _, [] => none
  | Tree.nil, _, _ :: _ => none
  | Tree.node a _ r, to_insert, [Direction.L] => some (Tree.node a to_insert r)
  | Tree.node a l _, to_insert, [Direction.R] => some (Tree.node a l to_insert)
  | Tree.node a l r, to_insert, Direction.L :: d :: ds =>
    match insert_leaf_aux l to_insert (d :: ds) with
    | none => none
    | some l2 => some (Tree.node a l2 r)
  | Tree.node a l r, to_insert, Direction.R :: d :: ds =>
    match insert_leaf_aux r to_insert (d :: ds) with
    | none => none
    | some r2 => some (Tree.node a l r2)

/-- `Heap::insert_leaf(node, size, dirlist)`: when `size == 1` the new node
becomes the root directly; otherwise the directed walk attaches it. -/
def insert_leaf (tree node : Tree α) (size : Nat) (dirlist : List Direction) :
    Option (Tree α) :=
  if size = 1 then some node else insert_leaf_aux tree node dirlist

/-- `Heap::_bubble_up(node, dirlist)`.  `swap_nodes` exchanges only the
`data` fields, so each swap is modelled by rebuilding the two nodes with
exchanged values.  With one direction left, the node is compared against the
child on the path and the values are swapped when `compare` signals a
violation; otherwise the child subtree is processed recursively first and
the (re-read) child value is compared on the way back up.  The source's
assert on an empty dirlist and its null dereferences are `none`. -/
def bubble_up_aux (cmp : α → α → Bool) : Tree α → List Direction → Option (Tree α)
  | _, [] => none
  | Tree.nil, _ :: _ => none
  | Tree.node a l r, [Direction.L] =>
    match l with
    | Tree.nil => none
    | Tree.node c cl cr =>
      some (if cmp a c then Tree.node c (Tree.node a cl cr) r
            else Tree.node a (Tree.node c cl cr) r)
  | Tree.node a l r, [Direction.R] =>
    match r with
    | Tree.nil => none
    | Tree.node c cl cr =>
      some (if cmp a c then Tree.node c l (Tree.node a cl cr)
            else Tree.node a l (Tree.node c cl cr))
  | Tree.node a l r, Direction.L :: d :: ds =>
    match l with
    | Tree.nil => none
    | Tree.node c cl cr =>
      match bubble_up_aux cmp (Tree.node c cl cr) (d :: ds) with
      | none => none
      | some Tree.nil => none
      | some (Tree.node c2 cl2 cr2) =>
        some (if cmp a c2 then Tree.node c2 (Tree.node a cl2 cr2) r
              else Tree.node a (Tree.node c2 cl2 cr2) r)
  | Tree.node a l r, Direction.R :: d :: ds =>
    match r with
    | Tree.nil => none
    | Tree.node c cl cr =>
      match bubble_up_aux cmp (Tree.node c cl cr) (d :: ds) with
      | none => none
      | some Tree.nil => none
      | some (Tree.node c2 cl2 cr2) =>
        some (if cmp a c2 then Tree.node c2 l (Tree.node a cl2 cr2)
              else Tree.node a l (Tree.node c2 cl2 cr2))

/-- `Heap::bubble_up(dirlist)`: starts `_bubble_up` at the heap's root. -/
def bubble_up (cmp : α → α → Bool) (tree : Tree α) (dirlist : List Direction) :
    Option (Tree α) :=
  bubble_up_aux cmp tree dirlist

/-- `Heap::pop_leaf(node, dirlist)`.  With one direction left it records
`node->data` — the data of the PARENT of the leaf being deleted, not the
deleted child's data — deletes the child, clears the slot, and returns a
copy `Node<T>(data)`; otherwise it recurses into the child on the path.
The assert on an empty dirlist and null dereferences are `none`. -/
def pop_leaf : Tree α → List Direction → Option (α × Tree α)
  | _, [] => none
  | Tree.nil, _ :: _ => none
  | Tree.node a l r, [d] =>
    match d with
    | Direction.L => some (a, Tree.node a Tree.nil r)
    | Direction.R => some (a, Tree.node a l Tree.nil)
  | Tree.node a l r, d :: d2 :: ds =>
    match d with
    | Direction.L =>
      match pop_leaf l (d2 :: ds) with
      | none => none
      | some (v, l2) => some (v, Tree.node a l2 r)
    | Direction.R =>
      match pop_leaf r (d2 :: ds) with
      | none => none
      | some (v, r2) => some (v, Tree.node a l r2)

/-- Number of nodes of a tree (used to state claims about live elements). -/
def Tree.count : Tree α → Nat
  | Tree.nil => 0
  | Tree.node _ l r => 1 + Tree.count l + Tree.count r

/-- Recursion worker for `Heap::bubble_down`, with an explicit fuel that
bounds the recursion depth (each recursive call of the source descends to a
strictly smaller subtree, so a fuel of `Tree.count t` is never exhausted;
the fuel keeps the function structurally recursive and hence computable by
the kernel). -/
def bubble_down_go (cmp : α → α → Bool) : Nat → Tree α → Tree α
  | 0, t => t
  | fuel + 1, t =>
    match t with
    | Tree.nil => Tree.nil
    | Tree.node a Tree.nil r => Tree.node a Tree.nil r
    | Tree.node a (Tree.node b bl br) Tree.nil =>
      if cmp a b then Tree.node b (Tree.node a bl br) Tree.nil
      else Tree.node a (Tree.node b bl br) Tree.nil
    | Tree.node a (Tree.node b bl br) (Tree.node c cl cr) =>
      let comp_with_root := if cmp b c then c else b
      if !(cmp a comp_with_root) then
        Tree.node a (Tree.node b bl br) (Tree.node c cl cr)
      else if cmp c b then
        Tree.node b (bubble_down_go cmp fuel (Tree.node a bl br)) (Tree.node c cl cr)
      else
        Tree.node c (Tree.node b bl br) (bubble_down_go cmp fuel (Tree.node a cl cr))

/-- `Heap::bubble_down(node)`.  If `node->left == EMPTY` it returns at once;
with only a left child it compares and possibly swaps values with that child
and stops; with both children it selects `comp_with_root` (the child value
not dominated by its sibling), stops if the root does not violate against
it, and otherwise swaps values with the child chosen by
`compare(right_data, left_data)` and recurses at that child's position. -/
def bubble_down (cmp : α → α → Bool) (t : Tree α) : Tree α :=
  bubble_down_go cmp (Tree.count t) t

/-- The assignment `tree->data = leaf.data` in `Heap::pop_top` (a null root
would be a dereference of `EMPTY`; under the heap's invariants the root is
a node here). -/
def set_root_data : Tree α → α → Tree α
  | Tree.nil, _ => Tree.nil
  | Tree.node _ l r, x => Tree.node x l r

/-- `Heap::pop_top()`.  Returns the popped value together with the new heap
state.  `assert(size > 0)` failing is `none`; reading `tree->data` through a
null root (possible because the `size == 1` branch of the source never
decrements `size`) is also `none`.  Note that the `size == 1` branch deletes
the tree but leaves `size` unchanged, exactly as the source does. -/
def Heap.pop_top (h : Heap α) : Option (α × Heap α) :=
  if h.size = 0 then none
  else
    match h.tree with
    | Tree.nil => none
    | Tree.node a l r =>
      if h.size = 1 then
        some (a, { h with tree := Tree.nil })
      else
        match pop_leaf (Tree.node a l r) (get_dirlist h.size) with
        | none => none
        | some (v, t) =>
          some (a, { h with
            tree := bubble_down h.compare (set_root_data t v),
            size := h.size - 1 })

/-- `Heap::get_top()`: returns `tree->data`; the assert on an empty tree is
`none`. -/
def Heap.get_top (h : Heap α) : Option α :=
  match h.tree with
  | Tree.nil => none
  | Tree.node a _ _ => some a

/-- `Heap::get_size()`. -/
def Heap.get_size (h : Heap α) : Nat := h.size

/-- `Heap::insert(node)` for a freshly allocated leaf `new Node<T>(x)` (the
specification-level `insert(value)`).  The member `size` is pre-incremented,
the dirlist for the new position is computed, the leaf is attached by
`insert_leaf`, and when the new size exceeds 1 the same dirlist drives
`bubble_up` from the (already updated) root. -/
def Heap.insert (h : Heap α) (x : α) : Option (Heap α) :=
  let size := h.size + 1
  let dirlist := get_dirlist size
  match insert_leaf h.tree (Tree.node x Tree.nil Tree.nil) size dirlist with
  | none => none
  | some t =>
    if size > 1 then
      match bubble_up h.compare t dirlist with
      | none => none
      | some t2 => some { h with tree := t2, size := size }
    else
      some { h with tree := t, size := size }

/-- The guard of `assert(size > 0)` at the top of `Heap::pop_top`: `true`
exactly when the assertion passes, i.e. no assertion-style stop occurs. -/
def pop_top_assert_passes (h : Heap α) : Bool := decide (h.size > 0)

/-- The guard of the assert in `Heap::get_top` (`!(tree == EMPTY)`): `true`
exactly when the assertion passes. -/
def get_top_assert_passes (h : Heap α) : Bool :=
  match h.tree with
  | Tree.nil => false
  | Tree.node _ _ _ => true

/-! ### Operation sequences -/

/-- A user-visible mutating operation. -/
inductive HeapOp (α : Type) : Type
  | ins (x : α)
  | pop

/-- Run one operation; `none` when the source would stop fatally (assert) or
run into undefined behavior. -/
def run_op (h : Heap α) : HeapOp α → Option (Heap α)
  | HeapOp.ins x => h.insert x
  | HeapOp.pop => (h.pop_top).map (fun p => p.2)

/-- Run a sequence of operations from a starting heap. -/
def run_ops (h : Heap α) : List (HeapOp α) → Option (Heap α)
  | [] => some h
  | op :: ops =>
    match run_op h op with
    | none => none
    | some h2 => run_ops h2 ops

/-- A heap state built by constructing with predicate `cmp` and then running
some sequence of inserts and pops, each completing normally. -/
def Reachable (cmp : α → α → Bool) (h : Heap α) : Prop :=
  ∃ ops : List (HeapOp α), run_ops (Heap.emptyWith cmp) ops = some h

/-- Insert a list of values left to right. -/
def insertAll (h : Heap α) : List α → Option (Heap α)
  | [] => some h
  | x :: xs =>
    match h.insert x with
    | none => none
    | some h2 => insertAll h2 xs

/-- Pop `k` times, collecting the returned values in order. -/
def runPops : Heap α → Nat → Option (List α × Heap α)
  | h, 0 => some ([], h)
  | h, k + 1 =>
    match h.pop_top with
    | none => none
    | some (v, h2) =>
      match runPops h2 k with
      | none => none
      | some (vs, h3) => some (v :: vs, h3)

/-! ### Specification-side definitions -/

/-- The numeric contribution of one descent step: child `2k` is reached by
appending bit `0` (Left), child `2k+1` by appending bit `1` (Right). -/
def dirBit : Direction → Nat
  | Direction.L => 0
  | Direction.R => 1

/-- Follow a direction sequence through the level-order numbering
`children(k) = 2k, 2k+1`, starting from position `i`. -/
def posAfter (i : Nat) (ds : List Direction) : Nat :=
  ds.foldl (fun k d => 2 * k + dirBit d) i

/-- Spec description of the path encoder: the binary representation of `n`
with its leading (most-significant) bit removed, read most-significant bit
first, where bit `0` is `L` and bit `1` is `R`; empty for `n = 1` (and for
`n = 0`, where the source also produces no directions). -/
def specBinDirs (n : Nat) : List Direction :=
  if n < 2 then []
  else specBinDirs (n / 2) ++ [if n % 2 == 0 then Direction.L else Direction.R]
termination_by n
decreasing_by omega

/-! ### Proof-side notions -/

/-- All values stored in a tree (preorder). -/
def Tree.values : Tree α → List α
  | Tree.nil => []
  | Tree.node a l r => a :: (Tree.values l ++ Tree.values r)

/-- The values strictly below the root. -/
def belowValues : Tree α → List α
  | Tree.nil => []
  | Tree.node _ l r => Tree.values l ++ Tree.values r

/-- The root value, if any. -/
def Tree.rootData : Tree α → Option α
  | Tree.nil => none
  | Tree.node a _ _ => some a

/-- Whether value `a` may legally sit directly above the root of `t`:
`compare` does not signal a violation against the child's value. -/
def rootOK (cmp : α → α → Bool) (a : α) : Tree α → Bool
  | Tree.nil => true
  | Tree.node c _ _ => !(cmp a c)

/-- The order invariant: for every node `p` with a child `c` in the tree,
`compare p.data c.data` is `false`. -/
def Ordered (cmp : α → α → Bool) : Tree α → Bool
  | Tree.nil => true
  | Tree.node a l r =>
    rootOK cmp a l && rootOK cmp a r && Ordered cmp l && Ordered cmp r

/-- Two trees have identical shape (only stored values may differ). -/
def SameShape : Tree α → Tree α → Prop
  | Tree.nil, Tree.nil => True
  | Tree.node _ l r, Tree.node _ l2 r2 => SameShape l l2 ∧ SameShape r r2
  | _, _ => False

/-- The local shape facts `bubble_down` relies on: no node has a right child
without a left child, and a node whose right slot is empty has a left child
with no children of its own.  Complete trees satisfy this at every node. -/
def weakShape : Tree α → Prop
  | Tree.nil => True
  | Tree.node _ l r =>
    (match l, r with
     | Tree.nil, Tree.node _ _ _ => False
     | Tree.node _ ll lr, Tree.nil => ll = Tree.nil ∧ lr = Tree.nil
     | _, _ => True) ∧ weakShape l ∧ weakShape r

/-- The complete binary tree holding value `f p` at every level-order
position `p` with `i ≤ p ≤ n` inside the subtree rooted at position `i`:
position `p`'s children are `2p` and `2p+1`, and exactly positions `≤ n`
are occupied. -/
def mkComplete (f : Nat → α) (n : Nat) (i : Nat) : Tree α :=
  if 1 ≤ i ∧ i ≤ n then
    Tree.node (f i) (mkComplete f n (2 * i)) (mkComplete f n (2 * i + 1))
  else Tree.nil
termination_by n + 1 - i
decreasing_by all_goals omega

/-- `Anc j q`: level-order position `j` is an ancestor of `q`, or `q`
itself (`q` lies in the subtree rooted at `j`). -/
inductive Anc (j : Nat) : Nat → Prop
  | refl : Anc j j
  | left {q : Nat} : Anc j q → Anc j (2 * q)
  | right {q : Nat} : Anc j q → Anc j (2 * q + 1)

/-- Shape part of the reachable-state invariant: the heap's tree is the
complete binary tree of `size` nodes — except for the freshly constructed
empty heap, and for the corrupted state `tree = EMPTY, size = 1` that the
missing size decrement of `pop_top`'s one-element branch leaves behind. -/
def InvS (h : Heap α) : Prop :=
  (h.tree = Tree.nil ∧ h.size = 0) ∨
  (∃ f : Nat → α, 1 ≤ h.size ∧ h.tree = mkComplete f h.size 1) ∨
  (h.tree = Tree.nil ∧ h.size = 1)

/-- Full reachable-state invariant: shape plus heap order, for a heap whose
stored predicate is `cmp`. -/
def Inv (cmp : α → α → Bool) (h : Heap α) : Prop :=
  InvS h ∧ h.compare = cmp ∧ Ordered cmp h.tree = true

/-- The "pure, consistent predicate" contract: `compare` behaves like a
strict order's violation test — it is asymmetric, transitive, and its
negation is transitive.  The default predicate `a > b` satisfies all
three. -/
def ConsistentPred (cmp : α → α → Bool) : Prop :=
  (∀ a b, cmp a b = true → cmp b a = false) ∧
  (∀ a b c, cmp a b = true → cmp b c = true → cmp a c = true) ∧
  (∀ a b c, cmp a b = false → cmp b c = false → cmp a c = false)

/-! ### The path encoder -/

theorem get_dirlist_go_eq :
    ∀ (fuel n : Nat) (acc : List Direction), n ≤ fuel →
      get_dirlist_go fuel n acc = specBinDirs n ++ acc := by
  intro fuel
  induction fuel with
  | zero =>
    intro n acc hn
    have h0 : n = 0 := by omega
    rw [get_dirlist_go, specBinDirs]
    simp [h0]
  | succ fuel ih =>
    intro n acc hn
    by_cases h : n < 2
    · rw [get_dirlist_go, specBinDirs]
      simp [h]
    · rw [get_dirlist_go, specBinDirs]
      rw [if_neg h, if_neg h, ih (n / 2) _ (by omega)]
      simp

theorem get_dirlist_aux_eq (n : Nat) (acc : List Direction) :
    get_dirlist_aux n acc = specBinDirs n ++ acc :=
  get_dirlist_go_eq n n acc (Nat.le_refl n)

theorem get_dirlist_eq_specBinDirs (n : Nat) : get_dirlist n = specBinDirs n := by
  rw [get_dirlist, get_dirlist_aux_eq]
  simp

theorem posAfter_nil (i : Nat) : posAfter i [] = i := rfl

theorem posAfter_cons (i : Nat) (d : Direction) (ds : List Direction) :
    posAfter i (d :: ds) = posAfter (2 * i + dirBit d) ds := rfl

theorem posAfter_append (i : Nat) (xs ys : List Direction) :
    posAfter i (xs ++ ys) = posAfter (posAfter i xs) ys := by
  simp [posAfter]

theorem posAfter_ge : ∀ (ds : List Direction) (i : Nat), i ≤ posAfter i ds := by
  intro ds
  induction ds with
  | nil => intro i; simp [posAfter_nil]
  | cons d ds ih =>
    intro i
    rw [posAfter_cons]
    have := ih (2 * i + dirBit d)
    omega

theorem posAfter_ge_two (ds : List Direction) (i : Nat) (h : ds ≠ []) :
    2 * i ≤ posAfter i ds := by
  match ds with
  | d :: ds =>
    rw [posAfter_cons]
    have := posAfter_ge ds (2 * i + dirBit d)
    omega

theorem posAfter_specBinDirs : ∀ n : Nat, 1 ≤ n → posAfter 1 (specBinDirs n) = n := by
  intro n
  induction n using Nat.strong_induction_on with
  | _ n ih =>
    intro hn
    by_cases h : n < 2
    · rw [specBinDirs]
      have : n = 1 := by omega
      simp [h, this, posAfter_nil]
    · rw [specBinDirs, if_neg h, posAfter_append, ih (n / 2) (by omega) (by omega)]
      rcases Nat.mod_two_eq_zero_or_one n with h2 | h2
      · rw [h2]
        show posAfter (n / 2) [Direction.L] = n
        rw [posAfter_cons, posAfter_nil]
        simp only [dirBit]
        omega
      · rw [h2]
        show posAfter (n / 2) [Direction.R] = n
        rw [posAfter_cons, posAfter_nil]
        simp only [dirBit]
        omega

theorem specBinDirs_nonempty (n : Nat) (h : 2 ≤ n) : specBinDirs n ≠ [] := by
  intro hempty
  have := posAfter_specBinDirs n (by omega)
  rw [hempty, posAfter_nil] at this
  omega

/-- C6: for every `n ≥ 1`, `get_dirlist n` is exactly the binary
representation of `n` with its leading bit removed, read most-significant
bit first, with bit 0 as `L` and bit 1 as `R`; following those directions
through the numbering `children(k) = 2k, 2k+1` from the root reaches
level-order position `n`, and `n = 1` yields the empty sequence. -/
theorem claim_C6_path_encoder (n : Nat) (hn : 1 ≤ n) :
    get_dirlist n = specBinDirs n ∧ posAfter 1 (get_dirlist n) = n := by
  refine ⟨get_dirlist_eq_specBinDirs n, ?_⟩
  rw [get_dirlist_eq_specBinDirs]
  exact posAfter_specBinDirs n hn

/-- Witness for C6 at the concrete position `n = 6`. -/
theorem claim_C6_path_encoder_witness :
    1 ≤ 6 ∧ (get_dirlist 6 = specBinDirs 6 ∧ posAfter 1 (get_dirlist 6) = 6) :=
  ⟨by decide, claim_C6_path_encoder 6 (by decide)⟩

/-! ### Concrete evaluations documenting the two `pop_top` code bugs

`Heap::pop_leaf` records `node->data` (the parent's value) instead of the
detached child's value, and the `size == 1` branch of `Heap::pop_top` never
decrements `size`. -/

/-- C2 (code evaluation at a failing input): after `insert 5; pop_top`
(a pop of a non-empty heap), `size` is stale at 1 while the tree is empty,
so the next `insert` walks `_insert_leaf` into the null root — a null
dereference (modelled by `none`) instead of the 1-node complete tree the
claim requires for N = 2 inserts, M = 1 pop. -/
theorem claim_C2_shape_invariant_fails :
    run_ops (Heap.emptyWith gtNat) [HeapOp.ins 5, HeapOp.pop, HeapOp.ins 7] = none := by
  rfl

/-- C3 (code evaluation at a failing input): inserting 5 then 3 builds the
tree `node 3 (node 5 nil nil) nil`; `pop_top` must detach the last leaf
(value 5) and promote 5 into the root, but `pop_leaf` records the parent's
value, so the result is the single node 3 and the value 5 is lost. -/
theorem claim_C3_promoted_value_wrong :
    (insertAll emptyDefaultNat [5, 3]).map (fun h => h.tree) =
      some (Tree.node 3 (Tree.node 5 Tree.nil Tree.nil) Tree.nil) ∧
    (insertAll emptyDefaultNat [5, 3]).bind
        (fun h => (h.pop_top).map (fun p => (p.1, p.2.tree))) =
      some (3, Tree.node 3 Tree.nil Tree.nil) := by
  exact ⟨rfl, rfl⟩

/-- C4 (code evaluation at a failing input): one insert followed by one
`pop_top` leaves `get_size() = 1`, not inserts − pops = 0, because the
`size == 1` branch of `pop_top` does not decrement `size`. -/
theorem claim_C4_size_not_decremented :
    (emptyDefaultNat.insert 5).bind
        (fun h => (h.pop_top).map (fun p => p.2.get_size)) = some 1 := by
  rfl

/-- C5 (code evaluation at the claim's input): for the default min-ordered
heap populated with 5, 3, 8, 1, 9, 2, six pops return 1, 2, 2, 3, 3, 3
(not 1, 2, 3, 5, 8, 9) and `get_size()` ends at 1 (not 0). -/
theorem claim_C5_extraction_order_fails :
    (insertAll emptyDefaultNat [5, 3, 8, 1, 9, 2]).bind
        (fun h => (runPops h 6).map (fun p => (p.1, p.2.get_size))) =
      some ([1, 2, 2, 3, 3, 3], 1) := by
  rfl

/-- C7 (code evaluation at a failing input): after inserting the single
value 5, `get_top()` and `pop_top()` both produce 5 as required, but the pop
leaves `get_size() = 1` instead of 0. -/
theorem claim_C7_round_trip_size_wrong :
    (emptyDefaultNat.insert 5).map Heap.get_top = some (some 5) ∧
    (emptyDefaultNat.insert 5).bind
        (fun h => (h.pop_top).map (fun p => (p.1, p.2.get_size))) =
      some (5, 1) := by
  exact ⟨rfl, rfl⟩

/-- C8 (code evaluation at a failing input): `insert 5; pop_top` reaches a
heap that contains zero elements but has `size = 1`.  On that heap
`assert(size > 0)` in `pop_top` passes — so no assertion-style stop occurs —
and the code goes on to dereference the null root (`tree->data`), which is
undefined behavior (modelled by `none`), not a fatal assertion.  (`get_top`
does assert, since it tests `tree == EMPTY` directly.) -/
theorem claim_C8_fatal_on_empty_violated :
    run_ops (Heap.emptyWith gtNat) [HeapOp.ins 5, HeapOp.pop] =
      some (Heap.mk Tree.nil 1 gtNat) ∧
    Tree.count (Heap.mk Tree.nil 1 gtNat).tree = 0 ∧
    pop_top_assert_passes (Heap.mk Tree.nil 1 gtNat) = true ∧
    Heap.pop_top (Heap.mk Tree.nil 1 gtNat) = none ∧
    Heap.get_top (Heap.mk Tree.nil 1 gtNat) = none ∧
    get_top_assert_passes (Heap.mk Tree.nil 1 gtNat) = false := by
  exact ⟨rfl, rfl, rfl, rfl, rfl, rfl⟩

/-- C9 (code evaluation at the claim's input): with the predicate `a < b`
and inserts 1, 4, 2, 9, 5, five pops return 9, 5, 5, 5, 5 — not the claimed
9, 5, 4, 2, 1 — because `pop_leaf` promotes the parent's value instead of
the detached leaf's value. -/
theorem claim_C9_custom_predicate_fails :
    (insertAll (Heap.emptyWith ltNat) [1, 4, 2, 9, 5]).bind
        (fun h => (runPops h 5).map (fun p => p.1)) = some [9, 5, 5, 5, 5] := by
  rfl

/-! ### The ancestor relation on level-order positions -/

theorem anc_le {j q : Nat} (h : Anc j q) : j ≤ q := by
  induction h with
  | refl => exact Nat.le_refl j
  | left _ ih => omega
  | right _ ih => omega

theorem anc_widen_left {i p : Nat} (h : Anc (2 * i) p) : Anc i p := by
  induction h with
  | refl => exact Anc.left Anc.refl
  | left _ ih => exact Anc.left ih
  | right _ ih => exact Anc.right ih

theorem anc_widen_right {i p : Nat} (h : Anc (2 * i + 1) p) : Anc i p := by
  induction h with
  | refl => exact Anc.right Anc.refl
  | left _ ih => exact Anc.left ih
  | right _ ih => exact Anc.right ih

theorem anc_inv {x m : Nat} (h : Anc x m) :
    x = m ∨ (∃ q, m = 2 * q ∧ Anc x q) ∨ (∃ q, m = 2 * q + 1 ∧ Anc x q) := by
  cases h with
  | refl => exact Or.inl rfl
  | left h2 => exact Or.inr (Or.inl ⟨_, rfl, h2⟩)
  | right h2 => exact Or.inr (Or.inr ⟨_, rfl, h2⟩)

theorem anc_inv_even {x q : Nat} (h : Anc x (2 * q)) : x = 2 * q ∨ Anc x q := by
  rcases anc_inv h with h1 | ⟨q2, hq2, h2⟩ | ⟨q2, hq2, h2⟩
  · exact Or.inl h1
  · have : q2 = q := by omega
    exact Or.inr (this ▸ h2)
  · omega

theorem anc_inv_odd {x q : Nat} (h : Anc x (2 * q + 1)) : x = 2 * q + 1 ∨ Anc x q := by
  rcases anc_inv h with h1 | ⟨q2, hq2, h2⟩ | ⟨q2, hq2, h2⟩
  · exact Or.inl h1
  · omega
  · have : q2 = q := by omega
    exact Or.inr (this ▸ h2)

theorem anc_sib_disjoint {j p : Nat} (hj : 1 ≤ j)
    (h1 : Anc (2 * j) p) (h2 : Anc (2 * j + 1) p) : False := by
  induction h1 with
  | refl => have := anc_le h2; omega
  | @left q h ih =>
    rcases anc_inv_even h2 with he | he
    · omega
    · exact ih he
  | @right q h ih =>
    rcases anc_inv_odd h2 with he | he
    · have hq : j = q := by omega
      subst hq
      have := anc_le h
      omega
    · exact ih he

theorem not_anc_sib_left {i : Nat} (hi : 1 ≤ i) : ¬ Anc (2 * i) (2 * i + 1) := by
  intro h
  rcases anc_inv_odd h with he | he
  · omega
  · have := anc_le he
    omega

theorem not_anc_sib_right {i : Nat} (hi : 1 ≤ i) : ¬ Anc (2 * i + 1) (2 * i) := by
  intro h
  rcases anc_inv_even h with he | he
  · omega
  · have := anc_le he
    omega

theorem dirBit_le (d : Direction) : dirBit d ≤ 1 := by
  cases d <;> simp [dirBit]

theorem posAfter_anc : ∀ (ds : List Direction) (i : Nat), Anc i (posAfter i ds) := by
  intro ds
  induction ds with
  | nil => intro i; exact Anc.refl
  | cons d ds ih =>
    intro i
    rw [posAfter_cons]
    cases d with
    | L =>
      have := ih (2 * i + dirBit Direction.L)
      simp only [dirBit] at this ⊢
      exact anc_widen_left (by simpa using this)
    | R =>
      have := ih (2 * i + dirBit Direction.R)
      simp only [dirBit] at this ⊢
      exact anc_widen_right this

/-! ### Basic facts about `mkComplete` -/

theorem mkComplete_eq_nil (f : Nat → α) {n i : Nat} (h : i = 0 ∨ n < i) :
    mkComplete f n i = Tree.nil := by
  rw [mkComplete, if_neg]
  omega

theorem mkComplete_eq_node (f : Nat → α) {n i : Nat} (h1 : 1 ≤ i) (h2 : i ≤ n) :
    mkComplete f n i =
      Tree.node (f i) (mkComplete f n (2 * i)) (mkComplete f n (2 * i + 1)) := by
  rw [mkComplete, if_pos ⟨h1, h2⟩]

theorem mkComplete_congr_fuel (f g : Nat → α) (n m : Nat) :
    ∀ (fuel j : Nat), 1 ≤ j → n + 1 - j ≤ fuel →
      (∀ p, Anc j p → f p = g p ∧ (p ≤ n ↔ p ≤ m)) →
      mkComplete f n j = mkComplete g m j := by
  intro fuel
  induction fuel with
  | zero =>
    intro j hj hfuel hp
    have hn : n < j := by omega
    have hm : m < j := by
      have := (hp j Anc.refl).2
      omega
    rw [mkComplete_eq_nil f (Or.inr hn), mkComplete_eq_nil g (Or.inr hm)]
  | succ fuel ih =>
    intro j hj hfuel hp
    by_cases hle : j ≤ n
    · have hm : j ≤ m := ((hp j Anc.refl).2).mp hle
      rw [mkComplete_eq_node f hj hle, mkComplete_eq_node g hj hm,
        (hp j Anc.refl).1]
      congr 1
      · exact ih (2 * j) (by omega) (by omega) (fun p hpp => hp p (anc_widen_left hpp))
      · exact ih (2 * j + 1) (by omega) (by omega) (fun p hpp => hp p (anc_widen_right hpp))
    · have hm : m < j := by
        have := (hp j Anc.refl).2
        omega
      rw [mkComplete_eq_nil f (Or.inr (by omega)), mkComplete_eq_nil g (Or.inr hm)]

theorem mkComplete_congr (f g : Nat → α) (n m : Nat) (j : Nat) (hj : 1 ≤ j)
    (hp : ∀ p, Anc j p → f p = g p ∧ (p ≤ n ↔ p ≤ m)) :
    mkComplete f n j = mkComplete g m j :=
  mkComplete_congr_fuel f g n m (n + 1 - j) j hj (Nat.le_refl _) hp

/-- Positions outside the subtree of `j` do not see an update at `n + 1`
together with the bound growing from `n` to `n + 1`. -/
theorem mkComplete_grow_irrel (f : Nat → α) (x : α) {n j : Nat} (hj : 1 ≤ j)
    (hq : ¬ Anc j (n + 1)) :
    mkComplete f n j = mkComplete (Function.update f (n + 1) x) (n + 1) j := by
  apply mkComplete_congr
  · exact hj
  · intro p hp
    have hne : p ≠ n + 1 := fun he => hq (he ▸ hp)
    constructor
    · exact (Function.update_noteq hne x f).symm
    · omega

/-- Positions outside the subtree of `j` do not see the bound shrinking from
`n` to `n - 1`. -/
theorem mkComplete_shrink_irrel (f : Nat → α) {n j : Nat} (hj : 1 ≤ j)
    (hq : ¬ Anc j n) :
    mkComplete f n j = mkComplete f (n - 1) j := by
  apply mkComplete_congr
  · exact hj
  · intro p hp
    have hne : p ≠ n := fun he => hq (he ▸ hp)
    exact ⟨rfl, by omega⟩

/-! ### Equation helpers for the traversal functions -/

theorem insert_leaf_aux_nil_ds (ins : Tree α) (d : Direction) (ds : List Direction) :
    insert_leaf_aux Tree.nil ins (d :: ds) = none := by
  cases d <;> cases ds <;> rfl

theorem insert_leaf_aux_last_L (a : α) (l r ins : Tree α) :
    insert_leaf_aux (Tree.node a l r) ins [Direction.L] = some (Tree.node a ins r) := rfl

theorem insert_leaf_aux_last_R (a : α) (l r ins : Tree α) :
    insert_leaf_aux (Tree.node a l r) ins [Direction.R] = some (Tree.node a l ins) := rfl

theorem insert_leaf_aux_cons_L (a : α) (l r ins : Tree α) (d2 : Direction)
    (rest2 : List Direction) :
    insert_leaf_aux (Tree.node a l r) ins (Direction.L :: d2 :: rest2) =
      (insert_leaf_aux l ins (d2 :: rest2)).map (fun l2 => Tree.node a l2 r) := by
  cases h : insert_leaf_aux l ins (d2 :: rest2) <;> simp [insert_leaf_aux, h]

theorem insert_leaf_aux_cons_R (a : α) (l r ins : Tree α) (d2 : Direction)
    (rest2 : List Direction) :
    insert_leaf_aux (Tree.node a l r) ins (Direction.R :: d2 :: rest2) =
      (insert_leaf_aux r ins (d2 :: rest2)).map (fun r2 => Tree.node a l r2) := by
  cases h : insert_leaf_aux r ins (d2 :: rest2) <;> simp [insert_leaf_aux, h]

theorem pop_leaf_nil_ds (d : Direction) (ds : List Direction) :
    pop_leaf (Tree.nil : Tree α) (d :: ds) = none := by
  cases d <;> cases ds <;> rfl

theorem pop_leaf_last_L (a : α) (l r : Tree α) :
    pop_leaf (Tree.node a l r) [Direction.L] = some (a, Tree.node a Tree.nil r) := rfl

theorem pop_leaf_last_R (a : α) (l r : Tree α) :
    pop_leaf (Tree.node a l r) [Direction.R] = some (a, Tree.node a l Tree.nil) := rfl

theorem pop_leaf_cons_L (a : α) (l r : Tree α) (d2 : Direction) (ds : List Direction) :
    pop_leaf (Tree.node a l r) (Direction.L :: d2 :: ds) =
      (pop_leaf l (d2 :: ds)).map (fun p => (p.1, Tree.node a p.2 r)) := by
  cases h : pop_leaf l (d2 :: ds) with
  | none => simp [pop_leaf, h]
  | some p => cases p; simp [pop_leaf, h]

theorem pop_leaf_cons_R (a : α) (l r : Tree α) (d2 : Direction) (ds : List Direction) :
    pop_leaf (Tree.node a l r) (Direction.R :: d2 :: ds) =
      (pop_leaf r (d2 :: ds)).map (fun p => (p.1, Tree.node a l p.2)) := by
  cases h : pop_leaf r (d2 :: ds) with
  | none => simp [pop_leaf, h]
  | some p => cases p; simp [pop_leaf, h]

theorem bubble_up_aux_last_L (cmp : α → α → Bool) (a c : α) (cl cr r : Tree α) :
    bubble_up_aux cmp (Tree.node a (Tree.node c cl cr) r) [Direction.L] =
      some (if cmp a c then Tree.node c (Tree.node a cl cr) r
            else Tree.node a (Tree.node c cl cr) r) := rfl

theorem bubble_up_aux_last_R (cmp : α → α → Bool) (a c : α) (cl cr l : Tree α) :
    bubble_up_aux cmp (Tree.node a l (Tree.node c cl cr)) [Direction.R] =
      some (if cmp a c then Tree.node c l (Tree.node a cl cr)
            else Tree.node a l (Tree.node c cl cr)) := rfl

theorem bubble_up_aux_cons_L (cmp : α → α → Bool) (a c : α) (cl cr r : Tree α)
    (d2 : Direction) (rest2 : List Direction) :
    bubble_up_aux cmp (Tree.node a (Tree.node c cl cr) r) (Direction.L :: d2 :: rest2) =
      match bubble_up_aux cmp (Tree.node c cl cr) (d2 :: rest2) with
      | none => none
      | some Tree.nil => none
      | some (Tree.node c2 cl2 cr2) =>
        some (if cmp a c2 then Tree.node c2 (Tree.node a cl2 cr2) r
              else Tree.node a (Tree.node c2 cl2 cr2) r) := rfl

theorem bubble_up_aux_cons_R (cmp : α → α → Bool) (a c : α) (cl cr l : Tree α)
    (d2 : Direction) (rest2 : List Direction) :
    bubble_up_aux cmp (Tree.node a l (Tree.node c cl cr)) (Direction.R :: d2 :: rest2) =
      match bubble_up_aux cmp (Tree.node c cl cr) (d2 :: rest2) with
      | none => none
      | some Tree.nil => none
      | some (Tree.node c2 cl2 cr2) =>
        some (if cmp a c2 then Tree.node c2 l (Tree.node a cl2 cr2)
              else Tree.node a l (Tree.node c2 cl2 cr2)) := rfl

/-! ### The insert walk on complete trees -/

theorem insert_leaf_aux_mk (f : Nat → α) (x : α) (n : Nat) :
    ∀ (ds : List Direction) (i : Nat), 1 ≤ i → ds ≠ [] → posAfter i ds = n + 1 →
      insert_leaf_aux (mkComplete f n i) (Tree.node x Tree.nil Tree.nil) ds =
        some (mkComplete (Function.update f (n + 1) x) (n + 1) i) := by
  intro ds
  induction ds with
  | nil => intro i _ habs _; exact absurd rfl habs
  | cons d rest ih =>
    intro i hi _ hpos
    rw [posAfter_cons] at hpos
    have hbd := dirBit_le d
    cases rest with
    | nil =>
      rw [posAfter_nil] at hpos
      have hin : i ≤ n := by omega
      have hine : i ≠ n + 1 := by omega
      have e1 : Function.update f (n + 1) x i = f i := Function.update_noteq hine x f
      rw [mkComplete_eq_node f hi hin,
        mkComplete_eq_node (Function.update f (n + 1) x) hi (by omega)]
      cases d with
      | L =>
        simp only [dirBit] at hpos
        have e2 : mkComplete (Function.update f (n + 1) x) (n + 1) (2 * i) =
            Tree.node x Tree.nil Tree.nil := by
          have h2i : 2 * i = n + 1 := by omega
          rw [h2i, mkComplete_eq_node (Function.update f (n + 1) x) (by omega) (Nat.le_refl _),
            Function.update_same,
            @mkComplete_eq_nil _ (Function.update f (n + 1) x) (n + 1) (2 * (n + 1))
              (Or.inr (by omega)),
            @mkComplete_eq_nil _ (Function.update f (n + 1) x) (n + 1) (2 * (n + 1) + 1)
              (Or.inr (by omega))]
        have e3 : mkComplete f n (2 * i + 1) =
            mkComplete (Function.update f (n + 1) x) (n + 1) (2 * i + 1) := by
          rw [@mkComplete_eq_nil _ f n (2 * i + 1) (Or.inr (by omega)),
            @mkComplete_eq_nil _ (Function.update f (n + 1) x) (n + 1) (2 * i + 1)
              (Or.inr (by omega))]
        rw [insert_leaf_aux_last_L, e1, e2, e3]
      | R =>
        simp only [dirBit] at hpos
        have e2 : mkComplete f n (2 * i) =
            mkComplete (Function.update f (n + 1) x) (n + 1) (2 * i) := by
          apply mkComplete_grow_irrel f x (by omega)
          intro hA
          rw [show n + 1 = 2 * i + 1 by omega] at hA
          exact not_anc_sib_left hi hA
        have e3 : mkComplete (Function.update f (n + 1) x) (n + 1) (2 * i + 1) =
            Tree.node x Tree.nil Tree.nil := by
          have h2i : 2 * i + 1 = n + 1 := by omega
          rw [h2i, mkComplete_eq_node (Function.update f (n + 1) x) (by omega) (Nat.le_refl _),
            Function.update_same,
            @mkComplete_eq_nil _ (Function.update f (n + 1) x) (n + 1) (2 * (n + 1))
              (Or.inr (by omega)),
            @mkComplete_eq_nil _ (Function.update f (n + 1) x) (n + 1) (2 * (n + 1) + 1)
              (Or.inr (by omega))]
        rw [insert_leaf_aux_last_R, e1, e2, e3]
    | cons d2 rest2 =>
      have hne : (d2 :: rest2 : List Direction) ≠ [] := by simp
      have hge : 2 * (2 * i + dirBit d) ≤ n + 1 := by
        have h1 := posAfter_ge_two (d2 :: rest2) (2 * i + dirBit d) hne
        omega
      have hin : i ≤ n := by omega
      have hine : i ≠ n + 1 := by omega
      have e1 : Function.update f (n + 1) x i = f i := Function.update_noteq hine x f
      have hanc : Anc (2 * i + dirBit d) (n + 1) := by
        rw [← hpos]
        exact posAfter_anc _ _
      rw [mkComplete_eq_node f hi hin,
        mkComplete_eq_node (Function.update f (n + 1) x) hi (by omega)]
      cases d with
      | L =>
        simp only [dirBit, Nat.add_zero] at hpos hanc
        have e3 : mkComplete f n (2 * i + 1) =
            mkComplete (Function.update f (n + 1) x) (n + 1) (2 * i + 1) := by
          apply mkComplete_grow_irrel f x (by omega)
          intro hA
          exact anc_sib_disjoint hi hanc hA
        rw [insert_leaf_aux_cons_L, ih (2 * i) (by omega) hne hpos, e1, e3]
        rfl
      | R =>
        simp only [dirBit] at hpos hanc
        have e2 : mkComplete f n (2 * i) =
            mkComplete (Function.update f (n + 1) x) (n + 1) (2 * i) := by
          apply mkComplete_grow_irrel f x (by omega)
          intro hA
          exact anc_sib_disjoint hi hA hanc
        rw [insert_leaf_aux_cons_R, ih (2 * i + 1) (by omega) hne hpos, e1, e2]
        rfl

/-! ### The pop walk on complete trees -/

theorem pop_leaf_mk (f : Nat → α) (n : Nat) :
    ∀ (ds : List Direction) (i : Nat), 1 ≤ i → ds ≠ [] → posAfter i ds = n →
      pop_leaf (mkComplete f n i) ds = some (f (n / 2), mkComplete f (n - 1) i) := by
  intro ds
  induction ds with
  | nil => intro i _ habs _; exact absurd rfl habs
  | cons d rest ih =>
    intro i hi _ hpos
    rw [posAfter_cons] at hpos
    have hbd := dirBit_le d
    cases rest with
    | nil =>
      rw [posAfter_nil] at hpos
      have hin : i ≤ n := by omega
      rw [mkComplete_eq_node f hi hin]
      cases d with
      | L =>
        simp only [dirBit] at hpos
        have hn2 : n / 2 = i := by omega
        have e2 : mkComplete f (n - 1) (2 * i) = Tree.nil :=
          @mkComplete_eq_nil _ f (n - 1) (2 * i) (Or.inr (by omega))
        have e3 : mkComplete f n (2 * i + 1) = mkComplete f (n - 1) (2 * i + 1) := by
          rw [@mkComplete_eq_nil _ f n (2 * i + 1) (Or.inr (by omega)),
            @mkComplete_eq_nil _ f (n - 1) (2 * i + 1) (Or.inr (by omega))]
        rw [pop_leaf_last_L, mkComplete_eq_node f hi (by omega : i ≤ n - 1),
          hn2, e2, e3]
      | R =>
        simp only [dirBit] at hpos
        have hn2 : n / 2 = i := by omega
        have e2 : mkComplete f n (2 * i) = mkComplete f (n - 1) (2 * i) := by
          apply mkComplete_shrink_irrel f (by omega)
          intro hA
          rw [show n = 2 * i + 1 by omega] at hA
          exact not_anc_sib_left hi hA
        have e3 : mkComplete f (n - 1) (2 * i + 1) = Tree.nil :=
          @mkComplete_eq_nil _ f (n - 1) (2 * i + 1) (Or.inr (by omega))
        rw [pop_leaf_last_R, mkComplete_eq_node f hi (by omega : i ≤ n - 1),
          hn2, e2, e3]
    | cons d2 rest2 =>
      have hne : (d2 :: rest2 : List Direction) ≠ [] := by simp
      have hge : 2 * (2 * i + dirBit d) ≤ n := by
        have h1 := posAfter_ge_two (d2 :: rest2) (2 * i + dirBit d) hne
        omega
      have hin : i ≤ n := by omega
      have hanc : Anc (2 * i + dirBit d) n := by
        rw [← hpos]
        exact posAfter_anc _ _
      rw [mkComplete_eq_node f hi hin, mkComplete_eq_node f hi (by omega : i ≤ n - 1)]
      cases d with
      | L =>
        simp only [dirBit, Nat.add_zero] at hpos hanc
        have e3 : mkComplete f n (2 * i + 1) = mkComplete f (n - 1) (2 * i + 1) := by
          apply mkComplete_shrink_irrel f (by omega)
          intro hA
          exact anc_sib_disjoint hi hanc hA
        rw [pop_leaf_cons_L, ih (2 * i) (by omega) hne hpos, e3]
        rfl
      | R =>
        simp only [dirBit] at hpos hanc
        have e2 : mkComplete f n (2 * i) = mkComplete f (n - 1) (2 * i) := by
          apply mkComplete_shrink_irrel f (by omega)
          intro hA
          exact anc_sib_disjoint hi hA hanc
        rw [pop_leaf_cons_R, ih (2 * i + 1) (by omega) hne hpos, e2]
        rfl

/-! ### Shape lemmas -/

theorem same_shape_refl : ∀ t : Tree α, SameShape t t := by
  intro t
  induction t with
  | nil => trivial
  | node a l r ihl ihr => exact ⟨ihl, ihr⟩

theorem same_shape_nil {u : Tree α} (h : SameShape Tree.nil u) : u = Tree.nil := by
  cases u with
  | nil => rfl
  | node c ul ur => exact absurd h (by simp [SameShape])

theorem same_shape_node {b : α} {l r u : Tree α} (h : SameShape (Tree.node b l r) u) :
    ∃ c ul ur, u = Tree.node c ul ur ∧ SameShape l ul ∧ SameShape r ur := by
  cases u with
  | nil => exact absurd h (by simp [SameShape])
  | node c ul ur => exact ⟨c, ul, ur, rfl, h.1, h.2⟩

theorem same_shape_left_value (a b : α) (l r : Tree α) {u : Tree α}
    (h : SameShape (Tree.node a l r) u) : SameShape (Tree.node b l r) u := by
  cases u with
  | nil => exact absurd h (by simp [SameShape])
  | node c ul ur => exact h

theorem insert_leaf_aux_node {ds : List Direction} {t ins u : Tree α}
    (h : insert_leaf_aux t ins ds = some u) : ∃ b ul ur, u = Tree.node b ul ur := by
  cases ds with
  | nil => simp [insert_leaf_aux] at h
  | cons d rest =>
    cases t with
    | nil =>
      rw [insert_leaf_aux_nil_ds] at h
      simp at h
    | node a l r =>
      cases rest with
      | nil =>
        cases d with
        | L =>
          rw [insert_leaf_aux_last_L] at h
          exact ⟨a, ins, r, (Option.some.inj h).symm⟩
        | R =>
          rw [insert_leaf_aux_last_R] at h
          exact ⟨a, l, ins, (Option.some.inj h).symm⟩
      | cons d2 rest2 =>
        cases d with
        | L =>
          rw [insert_leaf_aux_cons_L] at h
          cases h2 : insert_leaf_aux l ins (d2 :: rest2) with
          | none => rw [h2] at h; simp at h
          | some l2 =>
            rw [h2] at h
            simp only [Option.map_some'] at h
            exact ⟨a, l2, r, (Option.some.inj h).symm⟩
        | R =>
          rw [insert_leaf_aux_cons_R] at h
          cases h2 : insert_leaf_aux r ins (d2 :: rest2) with
          | none => rw [h2] at h; simp at h
          | some r2 =>
            rw [h2] at h
            simp only [Option.map_some'] at h
            exact ⟨a, l, r2, (Option.some.inj h).symm⟩

theorem bubble_up_aux_shape (cmp : α → α → Bool) (x : α) :
    ∀ (ds : List Direction) (t t1 : Tree α),
      insert_leaf_aux t (Tree.node x Tree.nil Tree.nil) ds = some t1 →
      ∃ t2, bubble_up_aux cmp t1 ds = some t2 ∧ SameShape t1 t2 := by
  intro ds
  induction ds with
  | nil => intro t t1 h; simp [insert_leaf_aux] at h
  | cons d rest ih =>
    intro t t1 h
    cases t with
    | nil =>
      rw [insert_leaf_aux_nil_ds] at h
      simp at h
    | node a l r =>
      cases rest with
      | nil =>
        cases d with
        | L =>
          rw [insert_leaf_aux_last_L] at h
          have ht1 : t1 = Tree.node a (Tree.node x Tree.nil Tree.nil) r :=
            (Option.some.inj h).symm
          subst ht1
          refine ⟨_, bubble_up_aux_last_L cmp a x Tree.nil Tree.nil r, ?_⟩
          by_cases hax : cmp a x = true
          · rw [if_pos hax]
            exact ⟨⟨trivial, trivial⟩, same_shape_refl r⟩
          · rw [if_neg hax]
            exact ⟨⟨trivial, trivial⟩, same_shape_refl r⟩
        | R =>
          rw [insert_leaf_aux_last_R] at h
          have ht1 : t1 = Tree.node a l (Tree.node x Tree.nil Tree.nil) :=
            (Option.some.inj h).symm
          subst ht1
          refine ⟨_, bubble_up_aux_last_R cmp a x Tree.nil Tree.nil l, ?_⟩
          by_cases hax : cmp a x = true
          · rw [if_pos hax]
            exact ⟨same_shape_refl l, ⟨trivial, trivial⟩⟩
          · rw [if_neg hax]
            exact ⟨same_shape_refl l, ⟨trivial, trivial⟩⟩
      | cons d2 rest2 =>
        cases d with
        | L =>
          rw [insert_leaf_aux_cons_L] at h
          cases hins : insert_leaf_aux l (Tree.node x Tree.nil Tree.nil) (d2 :: rest2) with
          | none => rw [hins] at h; simp at h
          | some l1 =>
            rw [hins] at h
            simp only [Option.map_some'] at h
            have ht1 : t1 = Tree.node a l1 r := (Option.some.inj h).symm
            subst ht1
            obtain ⟨l2, hbu, hsh⟩ := ih l l1 hins
            obtain ⟨b1, m1, m2, hl1⟩ := insert_leaf_aux_node hins
            subst hl1
            obtain ⟨c2, n1, n2, hl2, hs1, hs2⟩ := same_shape_node hsh
            subst hl2
            refine ⟨_, by rw [bubble_up_aux_cons_L, hbu], ?_⟩
            by_cases hax : cmp a c2 = true
            · rw [if_pos hax]
              exact ⟨⟨hs1, hs2⟩, same_shape_refl r⟩
            · rw [if_neg hax]
              exact ⟨⟨hs1, hs2⟩, same_shape_refl r⟩
        | R =>
          rw [insert_leaf_aux_cons_R] at h
          cases hins : insert_leaf_aux r (Tree.node x Tree.nil Tree.nil) (d2 :: rest2) with
          | none => rw [hins] at h; simp at h
          | some r1 =>
            rw [hins] at h
            simp only [Option.map_some'] at h
            have ht1 : t1 = Tree.node a l r1 := (Option.some.inj h).symm
            subst ht1
            obtain ⟨r2, hbu, hsh⟩ := ih r r1 hins
            obtain ⟨b1, m1, m2, hr1⟩ := insert_leaf_aux_node hins
            subst hr1
            obtain ⟨c2, n1, n2, hr2, hs1, hs2⟩ := same_shape_node hsh
            subst hr2
            refine ⟨_, by rw [bubble_up_aux_cons_R, hbu], ?_⟩
            by_cases hax : cmp a c2 = true
            · rw [if_pos hax]
              exact ⟨same_shape_refl l, ⟨hs1, hs2⟩⟩
            · rw [if_neg hax]
              exact ⟨same_shape_refl l, ⟨hs1, hs2⟩⟩

theorem bubble_down_go_shape (cmp : α → α → Bool) :
    ∀ (fuel : Nat) (t : Tree α), SameShape t (bubble_down_go cmp fuel t) := by
  intro fuel
  induction fuel with
  | zero => intro t; exact same_shape_refl t
  | succ fuel ih =>
    intro t
    cases t with
    | nil => trivial
    | node a l r =>
      cases l with
      | nil => exact same_shape_refl _
      | node b bl br =>
        cases r with
        | nil =>
          show SameShape _ (if cmp a b then _ else _)
          by_cases h : cmp a b = true
          · rw [if_pos h]
            exact ⟨⟨same_shape_refl bl, same_shape_refl br⟩, trivial⟩
          · rw [if_neg h]
            exact same_shape_refl _
        | node c cl cr =>
          show SameShape _
            (if !(cmp a (if cmp b c then c else b)) then _
             else if cmp c b then
               Tree.node b (bubble_down_go cmp fuel (Tree.node a bl br)) (Tree.node c cl cr)
             else
               Tree.node c (Tree.node b bl br) (bubble_down_go cmp fuel (Tree.node a cl cr)))
          by_cases h1 : (!(cmp a (if cmp b c then c else b))) = true
          · rw [if_pos h1]
            exact same_shape_refl _
          · rw [if_neg h1]
            by_cases h2 : cmp c b = true
            · rw [if_pos h2]
              exact ⟨same_shape_left_value a b bl br (ih (Tree.node a bl br)),
                same_shape_refl _⟩
            · rw [if_neg h2]
              exact ⟨same_shape_refl _,
                same_shape_left_value a c cl cr (ih (Tree.node a cl cr))⟩

/-- A tree with the same shape as a complete tree is itself complete, with
some value assignment agreeing with the old one outside the subtree. -/
theorem same_shape_mk_exists (n : Nat) :
    ∀ (fuel i : Nat) (f : Nat → α) (u : Tree α), 1 ≤ i → n + 1 - i ≤ fuel →
      SameShape (mkComplete f n i) u →
      ∃ g : Nat → α, u = mkComplete g n i ∧ ∀ p, ¬ Anc i p → g p = f p := by
  intro fuel
  induction fuel with
  | zero =>
    intro i f u hi hfuel hsh
    rw [@mkComplete_eq_nil _ f n i (Or.inr (by omega))] at hsh
    refine ⟨f, ?_, fun p _ => rfl⟩
    rw [same_shape_nil hsh, @mkComplete_eq_nil _ f n i (Or.inr (by omega))]
  | succ fuel ih =>
    intro i f u hi hfuel hsh
    by_cases hin : i ≤ n
    · rw [mkComplete_eq_node f hi hin] at hsh
      obtain ⟨v, ul, ur, hu, hsl, hsr⟩ := same_shape_node hsh
      subst hu
      obtain ⟨g1, hg1, hg1f⟩ := ih (2 * i) f ul (by omega) (by omega) hsl
      obtain ⟨g2, hg2, hg2f⟩ := ih (2 * i + 1) f ur (by omega) (by omega) hsr
      classical
      refine ⟨fun p => if Anc (2 * i) p then g1 p
        else if Anc (2 * i + 1) p then g2 p else Function.update f i v p, ?_, ?_⟩
      · have hroot : (if Anc (2 * i) i then g1 i
            else if Anc (2 * i + 1) i then g2 i else Function.update f i v i) = v := by
          have h1 : ¬ Anc (2 * i) i := fun hA => by have := anc_le hA; omega
          have h2 : ¬ Anc (2 * i + 1) i := fun hA => by have := anc_le hA; omega
          rw [if_neg h1, if_neg h2, Function.update_same]
        have hleft : mkComplete g1 n (2 * i) =
            mkComplete (fun p => if Anc (2 * i) p then g1 p
              else if Anc (2 * i + 1) p then g2 p else Function.update f i v p) n (2 * i) := by
          apply mkComplete_congr _ _ _ _ _ (by omega)
          intro p hp
          refine ⟨?_, Iff.rfl⟩
          show g1 p = if Anc (2 * i) p then g1 p
            else if Anc (2 * i + 1) p then g2 p else Function.update f i v p
          rw [if_pos hp]
        have hright : mkComplete g2 n (2 * i + 1) =
            mkComplete (fun p => if Anc (2 * i) p then g1 p
              else if Anc (2 * i + 1) p then g2 p else Function.update f i v p) n (2 * i + 1) := by
          apply mkComplete_congr _ _ _ _ _ (by omega)
          intro p hp
          have hnp : ¬ Anc (2 * i) p := fun hA => anc_sib_disjoint hi hA hp
          refine ⟨?_, Iff.rfl⟩
          show g2 p = if Anc (2 * i) p then g1 p
            else if Anc (2 * i + 1) p then g2 p else Function.update f i v p
          rw [if_neg hnp, if_pos hp]
        rw [mkComplete_eq_node _ hi hin, hroot, ← hleft, ← hright, ← hg1, ← hg2]
      · intro p hnp
        have h1 : ¬ Anc (2 * i) p := fun hA => hnp (anc_widen_left hA)
        have h2 : ¬ Anc (2 * i + 1) p := fun hA => hnp (anc_widen_right hA)
        have hne : p ≠ i := fun he => hnp (he ▸ Anc.refl)
        show (if Anc (2 * i) p then g1 p
          else if Anc (2 * i + 1) p then g2 p else Function.update f i v p) = f p
        rw [if_neg h1, if_neg h2, Function.update_noteq hne v f]
    · rw [@mkComplete_eq_nil _ f n i (Or.inr (by omega))] at hsh
      refine ⟨f, ?_, fun p _ => rfl⟩
      rw [same_shape_nil hsh, @mkComplete_eq_nil _ f n i (Or.inr (by omega))]

theorem weakShape_mk (f : Nat → α) (n : Nat) :
    ∀ (fuel i : Nat), 1 ≤ i → n + 1 - i ≤ fuel → weakShape (mkComplete f n i) := by
  intro fuel
  induction fuel with
  | zero =>
    intro i hi hfuel
    rw [@mkComplete_eq_nil _ f n i (Or.inr (by omega))]
    trivial
  | succ fuel ih =>
    intro i hi hfuel
    by_cases hin : i ≤ n
    · rw [mkComplete_eq_node f hi hin]
      refine ⟨?_, ih (2 * i) (by omega) (by omega), ih (2 * i + 1) (by omega) (by omega)⟩
      by_cases h2 : 2 * i ≤ n
      · by_cases h3 : 2 * i + 1 ≤ n
        · rw [mkComplete_eq_node f (by omega) h2, mkComplete_eq_node f (by omega) h3]
          trivial
        · rw [mkComplete_eq_node f (by omega) h2,
            @mkComplete_eq_nil _ f n (2 * i + 1) (Or.inr (by omega)),
            @mkComplete_eq_nil _ f n (2 * (2 * i)) (Or.inr (by omega)),
            @mkComplete_eq_nil _ f n (2 * (2 * i) + 1) (Or.inr (by omega))]
          exact ⟨rfl, rfl⟩
      · rw [@mkComplete_eq_nil _ f n (2 * i) (Or.inr (by omega)),
          @mkComplete_eq_nil _ f n (2 * i + 1) (Or.inr (by omega))]
        trivial
    · rw [@mkComplete_eq_nil _ f n i (Or.inr (by omega))]
      trivial

/-! ### Order lemmas -/

theorem rootOK_nil (cmp : α → α → Bool) (v : α) :
    rootOK cmp v (Tree.nil : Tree α) = true := rfl

theorem rootOK_node (cmp : α → α → Bool) (v c : α) (cl cr : Tree α) :
    rootOK cmp v (Tree.node c cl cr) = true ↔ cmp v c = false := by
  simp [rootOK]

theorem ordered_node (cmp : α → α → Bool) (a : α) (l r : Tree α) :
    Ordered cmp (Tree.node a l r) = true ↔
      (rootOK cmp a l = true ∧ rootOK cmp a r = true ∧
        Ordered cmp l = true ∧ Ordered cmp r = true) := by
  simp [Ordered, Bool.and_eq_true, and_assoc]

theorem ordered_nil (cmp : α → α → Bool) : Ordered cmp (Tree.nil : Tree α) = true := rfl

/-- With a transitive negation, an ordered tree is dominated entirely by any
value that may sit above its root. -/
theorem dom_of_ordered (cmp : α → α → Bool)
    (hntr : ∀ a b c, cmp a b = false → cmp b c = false → cmp a c = false) :
    ∀ (t : Tree α) (v : α), Ordered cmp t = true → rootOK cmp v t = true →
      ∀ d ∈ Tree.values t, cmp v d = false := by
  intro t
  induction t with
  | nil => intro v _ _ d hd; simp [Tree.values] at hd
  | node a l r ihl ihr =>
    intro v hord hro d hd
    rw [ordered_node] at hord
    obtain ⟨hal, har, hol, hor⟩ := hord
    have hva : cmp v a = false := (rootOK_node cmp v a l r).mp hro
    simp only [Tree.values, List.mem_cons, List.mem_append] at hd
    rcases hd with hd | hd | hd
    · subst hd; exact hva
    · exact hntr v a d hva (ihl a hol hal d hd)
    · exact hntr v a d hva (ihr a hor har d hd)

theorem bool_false {b : Bool} (h : ¬ b = true) : b = false := by
  cases b with
  | false => rfl
  | true => exact absurd rfl h

theorem irrefl_of_asym (cmp : α → α → Bool)
    (hasym : ∀ a b, cmp a b = true → cmp b a = false) (v : α) : cmp v v = false := by
  cases h : cmp v v with
  | false => rfl
  | true => exact absurd (hasym v v h) (by simp [h])

theorem values_node (a : α) (l r : Tree α) :
    Tree.values (Tree.node a l r) = a :: (Tree.values l ++ Tree.values r) := rfl

theorem belowValues_node (a : α) (l r : Tree α) :
    belowValues (Tree.node a l r) = Tree.values l ++ Tree.values r := rfl

theorem rootData_node (a : α) (l r : Tree α) :
    (Tree.node a l r).rootData = some a := rfl

/-- A value that strictly dominates the root of an ordered subtree may sit
above that subtree (uses transitivity of `cmp`). -/
theorem rootOK_trans (cmp : α → α → Bool)
    (htr : ∀ a b c, cmp a b = true → cmp b c = true → cmp a c = true)
    {a x : α} {r : Tree α} (hax : cmp a x = true) (har : rootOK cmp a r = true) :
    rootOK cmp x r = true := by
  cases r with
  | nil => exact rootOK_nil cmp x
  | node rc rl rr =>
    rw [rootOK_node] at har ⊢
    cases hxr : cmp x rc with
    | false => rfl
    | true => exact absurd (htr a x rc hax hxr) (by simp [har])

/-- `a` may sit above `t` when `a` may sit above `b` and `b` dominates every
value of `t` (uses transitivity of the negation of `cmp`). -/
theorem rootOK_dom (cmp : α → α → Bool)
    (hntr : ∀ a b c, cmp a b = false → cmp b c = false → cmp a c = false)
    {a b : α} {t : Tree α} (hab : cmp a b = false)
    (hdom : ∀ d ∈ Tree.values t, cmp b d = false) : rootOK cmp a t = true := by
  cases t with
  | nil => exact rootOK_nil cmp a
  | node v tl tr =>
    rw [rootOK_node]
    exact hntr a b v hab (hdom v (by simp [values_node]))

/-! ### Bubble-up restores the order invariant -/

theorem bubble_up_aux_main (cmp : α → α → Bool)
    (hasym : ∀ a b, cmp a b = true → cmp b a = false)
    (htr : ∀ a b c, cmp a b = true → cmp b c = true → cmp a c = true)
    (hntr : ∀ a b c, cmp a b = false → cmp b c = false → cmp a c = false)
    (x : α) :
    ∀ (ds : List Direction) (a : α) (l r : Tree α) (t1 : Tree α),
      Ordered cmp (Tree.node a l r) = true →
      insert_leaf_aux (Tree.node a l r) (Tree.node x Tree.nil Tree.nil) ds = some t1 →
      ∃ t2, bubble_up_aux cmp t1 ds = some t2 ∧ SameShape t1 t2 ∧
        Ordered cmp t2 = true ∧
        (t2.rootData = some a ∨
          (t2.rootData = some x ∧ ∀ d ∈ belowValues t2, cmp a d = false)) := by
  have hirr : ∀ v : α, cmp v v = false := irrefl_of_asym cmp hasym
  intro ds
  induction ds with
  | nil => intro a l r t1 _ h; simp [insert_leaf_aux] at h
  | cons d rest ih =>
    intro a l r t1 hord h
    rw [ordered_node] at hord
    obtain ⟨hal, har, hol, hor⟩ := hord
    cases rest with
    | nil =>
      cases d with
      | L =>
        rw [insert_leaf_aux_last_L] at h
        have ht1 : t1 = Tree.node a (Tree.node x Tree.nil Tree.nil) r :=
          (Option.some.inj h).symm
        subst ht1
        by_cases hax : cmp a x = true
        · refine ⟨Tree.node x (Tree.node a Tree.nil Tree.nil) r,
            by rw [bubble_up_aux_last_L, if_pos hax],
            ⟨⟨trivial, trivial⟩, same_shape_refl r⟩, ?_, Or.inr ⟨rfl, ?_⟩⟩
          · rw [ordered_node]
            refine ⟨(rootOK_node cmp x a Tree.nil Tree.nil).mpr (hasym a x hax),
              rootOK_trans cmp htr hax har, ?_, hor⟩
            rw [ordered_node]
            exact ⟨rootOK_nil cmp a, rootOK_nil cmp a, rfl, rfl⟩
          · intro d hd
            rw [belowValues_node] at hd
            simp only [values_node, Tree.values, List.nil_append, List.append_nil,
              List.mem_append, List.mem_singleton] at hd
            rcases hd with hd | hd
            · rw [hd]; exact hirr a
            · exact dom_of_ordered cmp hntr r a hor har d hd
        · refine ⟨Tree.node a (Tree.node x Tree.nil Tree.nil) r,
            by rw [bubble_up_aux_last_L, if_neg hax], same_shape_refl _, ?_, Or.inl rfl⟩
          rw [ordered_node]
          refine ⟨(rootOK_node cmp a x Tree.nil Tree.nil).mpr (bool_false hax), har, ?_, hor⟩
          rw [ordered_node]
          exact ⟨rootOK_nil cmp x, rootOK_nil cmp x, rfl, rfl⟩
      | R =>
        rw [insert_leaf_aux_last_R] at h
        have ht1 : t1 = Tree.node a l (Tree.node x Tree.nil Tree.nil) :=
          (Option.some.inj h).symm
        subst ht1
        by_cases hax : cmp a x = true
        · refine ⟨Tree.node x l (Tree.node a Tree.nil Tree.nil),
            by rw [bubble_up_aux_last_R, if_pos hax],
            ⟨same_shape_refl l, ⟨trivial, trivial⟩⟩, ?_, Or.inr ⟨rfl, ?_⟩⟩
          · rw [ordered_node]
            refine ⟨rootOK_trans cmp htr hax hal,
              (rootOK_node cmp x a Tree.nil Tree.nil).mpr (hasym a x hax), hol, ?_⟩
            rw [ordered_node]
            exact ⟨rootOK_nil cmp a, rootOK_nil cmp a, rfl, rfl⟩
          · intro d hd
            rw [belowValues_node] at hd
            simp only [values_node, Tree.values, List.nil_append, List.append_nil,
              List.mem_append, List.mem_singleton] at hd
            rcases hd with hd | hd
            · exact dom_of_ordered cmp hntr l a hol hal d hd
            · rw [hd]; exact hirr a
        · refine ⟨Tree.node a l (Tree.node x Tree.nil Tree.nil),
            by rw [bubble_up_aux_last_R, if_neg hax], same_shape_refl _, ?_, Or.inl rfl⟩
          rw [ordered_node]
          refine ⟨hal, (rootOK_node cmp a x Tree.nil Tree.nil).mpr (bool_false hax), hol, ?_⟩
          rw [ordered_node]
          exact ⟨rootOK_nil cmp x, rootOK_nil cmp x, rfl, rfl⟩
    | cons d2 rest2 =>
      cases d with
      | L =>
        rw [insert_leaf_aux_cons_L] at h
        cases hins : insert_leaf_aux l (Tree.node x Tree.nil Tree.nil) (d2 :: rest2) with
        | none => rw [hins] at h; simp at h
        | some l1 =>
          rw [hins] at h
          simp only [Option.map_some'] at h
          have ht1 : t1 = Tree.node a l1 r := (Option.some.inj h).symm
          subst ht1
          cases l with
          | nil => rw [insert_leaf_aux_nil_ds] at hins; simp at hins
          | node b cl cr =>
            obtain ⟨l2, hbu, hsh, hordl2, hroot⟩ := ih b cl cr l1 hol hins
            obtain ⟨b1, m1, m2, hl1⟩ := insert_leaf_aux_node hins
            subst hl1
            obtain ⟨c2, n1, n2, hl2, hs1, hs2⟩ := same_shape_node hsh
            subst hl2
            have hab : cmp a b = false := (rootOK_node cmp a b cl cr).mp hal
            have hred : bubble_up_aux cmp (Tree.node a (Tree.node b1 m1 m2) r)
                (Direction.L :: d2 :: rest2) =
                some (if cmp a c2 then Tree.node c2 (Tree.node a n1 n2) r
                      else Tree.node a (Tree.node c2 n1 n2) r) := by
              rw [bubble_up_aux_cons_L, hbu]
            rw [rootData_node] at hroot
            rcases hroot with hc2 | ⟨hc2, hdom⟩
            · have hc2b : c2 = b := Option.some.inj hc2
              subst hc2b
              refine ⟨Tree.node a (Tree.node c2 n1 n2) r,
                by rw [hred, if_neg (by simp [hab])],
                ⟨⟨hs1, hs2⟩, same_shape_refl r⟩, ?_, Or.inl rfl⟩
              rw [ordered_node]
              exact ⟨(rootOK_node cmp a c2 n1 n2).mpr hab, har, hordl2, hor⟩
            · have hc2x : c2 = x := Option.some.inj hc2
              subst hc2x
              rw [belowValues_node] at hdom
              rw [ordered_node] at hordl2
              obtain ⟨hxn1, hxn2, hon1, hon2⟩ := hordl2
              by_cases hax : cmp a c2 = true
              · refine ⟨Tree.node c2 (Tree.node a n1 n2) r,
                  by rw [hred, if_pos hax],
                  ⟨⟨hs1, hs2⟩, same_shape_refl r⟩, ?_, Or.inr ⟨rfl, ?_⟩⟩
                · rw [ordered_node]
                  refine ⟨(rootOK_node cmp c2 a n1 n2).mpr (hasym a c2 hax),
                    rootOK_trans cmp htr hax har, ?_, hor⟩
                  rw [ordered_node]
                  refine ⟨rootOK_dom cmp hntr hab
                      (fun d hd => hdom d (List.mem_append_left _ hd)),
                    rootOK_dom cmp hntr hab
                      (fun d hd => hdom d (List.mem_append_right _ hd)), hon1, hon2⟩
                · intro d hd
                  rw [belowValues_node] at hd
                  simp only [values_node, List.mem_append, List.mem_cons] at hd
                  rcases hd with (hd | hd | hd) | hd
                  · rw [hd]; exact hirr a
                  · exact hntr a b d hab (hdom d (List.mem_append_left _ hd))
                  · exact hntr a b d hab (hdom d (List.mem_append_right _ hd))
                  · exact dom_of_ordered cmp hntr r a hor har d hd
              · refine ⟨Tree.node a (Tree.node c2 n1 n2) r,
                  by rw [hred, if_neg hax],
                  ⟨⟨hs1, hs2⟩, same_shape_refl r⟩, ?_, Or.inl rfl⟩
                rw [ordered_node]
                refine ⟨(rootOK_node cmp a c2 n1 n2).mpr (bool_false hax), har, ?_, hor⟩
                rw [ordered_node]
                exact ⟨hxn1, hxn2, hon1, hon2⟩
      | R =>
        rw [insert_leaf_aux_cons_R] at h
        cases hins : insert_leaf_aux r (Tree.node x Tree.nil Tree.nil) (d2 :: rest2) with
        | none => rw [hins] at h; simp at h
        | some r1 =>
          rw [hins] at h
          simp only [Option.map_some'] at h
          have ht1 : t1 = Tree.node a l r1 := (Option.some.inj h).symm
          subst ht1
          cases r with
          | nil => rw [insert_leaf_aux_nil_ds] at hins; simp at hins
          | node b cl cr =>
            obtain ⟨r2, hbu, hsh, hordr2, hroot⟩ := ih b cl cr r1 hor hins
            obtain ⟨b1, m1, m2, hr1⟩ := insert_leaf_aux_node hins
            subst hr1
            obtain ⟨c2, n1, n2, hr2, hs1, hs2⟩ := same_shape_node hsh
            subst hr2
            have hab : cmp a b = false := (rootOK_node cmp a b cl cr).mp har
            have hred : bubble_up_aux cmp (Tree.node a l (Tree.node b1 m1 m2))
                (Direction.R :: d2 :: rest2) =
                some (if cmp a c2 then Tree.node c2 l (Tree.node a n1 n2)
                      else Tree.node a l (Tree.node c2 n1 n2)) := by
              rw [bubble_up_aux_cons_R, hbu]
            rw [rootData_node] at hroot
            rcases hroot with hc2 | ⟨hc2, hdom⟩
            · have hc2b : c2 = b := Option.some.inj hc2
              subst hc2b
              refine ⟨Tree.node a l (Tree.node c2 n1 n2),
                by rw [hred, if_neg (by simp [hab])],
                ⟨same_shape_refl l, ⟨hs1, hs2⟩⟩, ?_, Or.inl rfl⟩
              rw [ordered_node]
              exact ⟨hal, (rootOK_node cmp a c2 n1 n2).mpr hab, hol, hordr2⟩
            · have hc2x : c2 = x := Option.some.inj hc2
              subst hc2x
              rw [belowValues_node] at hdom
              rw [ordered_node] at hordr2
              obtain ⟨hxn1, hxn2, hon1, hon2⟩ := hordr2
              by_cases hax : cmp a c2 = true
              · refine ⟨Tree.node c2 l (Tree.node a n1 n2),
                  by rw [hred, if_pos hax],
                  ⟨same_shape_refl l, ⟨hs1, hs2⟩⟩, ?_, Or.inr ⟨rfl, ?_⟩⟩
                · rw [ordered_node]
                  refine ⟨rootOK_trans cmp htr hax hal,
                    (rootOK_node cmp c2 a n1 n2).mpr (hasym a c2 hax), hol, ?_⟩
                  rw [ordered_node]
                  refine ⟨rootOK_dom cmp hntr hab
                      (fun d hd => hdom d (List.mem_append_left _ hd)),
                    rootOK_dom cmp hntr hab
                      (fun d hd => hdom d (List.mem_append_right _ hd)), hon1, hon2⟩
                · intro d hd
                  rw [belowValues_node] at hd
                  simp only [values_node, List.mem_append, List.mem_cons] at hd
                  rcases hd with hd | (hd | hd | hd)
                  · exact dom_of_ordered cmp hntr l a hol hal d hd
                  · rw [hd]; exact hirr a
                  · exact hntr a b d hab (hdom d (List.mem_append_left _ hd))
                  · exact hntr a b d hab (hdom d (List.mem_append_right _ hd))
              · refine ⟨Tree.node a l (Tree.node c2 n1 n2),
                  by rw [hred, if_neg hax],
                  ⟨same_shape_refl l, ⟨hs1, hs2⟩⟩, ?_, Or.inl rfl⟩
                rw [ordered_node]
                refine ⟨hal, (rootOK_node cmp a c2 n1 n2).mpr (bool_false hax), hol, ?_⟩
                rw [ordered_node]
                exact ⟨hxn1, hxn2, hon1, hon2⟩

/-! ### Bubble-down restores the order invariant -/

theorem bubble_down_go_main (cmp : α → α → Bool)
    (hasym : ∀ a b, cmp a b = true → cmp b a = false)
    (htr : ∀ a b c, cmp a b = true → cmp b c = true → cmp a c = true)
    (hntr : ∀ a b c, cmp a b = false → cmp b c = false → cmp a c = false) :
    ∀ (fuel : Nat) (a : α) (l r : Tree α),
      Tree.count (Tree.node a l r) ≤ fuel →
      Ordered cmp l = true → Ordered cmp r = true → weakShape (Tree.node a l r) →
      Ordered cmp (bubble_down_go cmp fuel (Tree.node a l r)) = true ∧
      ((bubble_down_go cmp fuel (Tree.node a l r)).rootData = some a ∨
        ∃ v, (bubble_down_go cmp fuel (Tree.node a l r)).rootData = some v ∧
          v ∈ belowValues (Tree.node a l r)) := by
  intro fuel
  induction fuel with
  | zero =>
    intro a l r hc _ _ _
    exfalso
    rw [Tree.count] at hc
    omega
  | succ fuel ih =>
    intro a l r hc hol hor hw
    cases l with
    | nil =>
      cases r with
      | nil =>
        constructor
        · show Ordered cmp (Tree.node a Tree.nil Tree.nil) = true
          rw [ordered_node]
          exact ⟨rootOK_nil cmp a, rootOK_nil cmp a, rfl, rfl⟩
        · exact Or.inl rfl
      | node c cl cr => exact absurd hw.1 (by simp)
    | node b bl br =>
      have hwbl := hw.2.1
      cases r with
      | nil =>
        obtain ⟨hbl, hbr⟩ : bl = Tree.nil ∧ br = Tree.nil := hw.1
        subst hbl
        subst hbr
        have hstep : bubble_down_go cmp (fuel + 1)
            (Tree.node a (Tree.node b Tree.nil Tree.nil) Tree.nil) =
            if cmp a b then Tree.node b (Tree.node a Tree.nil Tree.nil) Tree.nil
            else Tree.node a (Tree.node b Tree.nil Tree.nil) Tree.nil := rfl
        rw [hstep]
        by_cases hab : cmp a b = true
        · rw [if_pos hab]
          constructor
          · rw [ordered_node]
            refine ⟨(rootOK_node cmp b a Tree.nil Tree.nil).mpr (hasym a b hab),
              rootOK_nil cmp b, ?_, rfl⟩
            rw [ordered_node]
            exact ⟨rootOK_nil cmp a, rootOK_nil cmp a, rfl, rfl⟩
          · refine Or.inr ⟨b, rfl, ?_⟩
            simp [belowValues_node, values_node]
        · rw [if_neg hab]
          constructor
          · rw [ordered_node]
            exact ⟨(rootOK_node cmp a b Tree.nil Tree.nil).mpr (bool_false hab),
              rootOK_nil cmp a, hol, rfl⟩
          · exact Or.inl rfl
      | node c cl cr =>
        have hwcl := hw.2.2
        rw [ordered_node] at hol hor
        obtain ⟨hbbl, hbbr, hobl, hobr⟩ := hol
        obtain ⟨hccl, hccr, hocl, hocr⟩ := hor
        have hstep : bubble_down_go cmp (fuel + 1)
            (Tree.node a (Tree.node b bl br) (Tree.node c cl cr)) =
            if !(cmp a (if cmp b c then c else b)) then
              Tree.node a (Tree.node b bl br) (Tree.node c cl cr)
            else if cmp c b then
              Tree.node b (bubble_down_go cmp fuel (Tree.node a bl br)) (Tree.node c cl cr)
            else
              Tree.node c (Tree.node b bl br) (bubble_down_go cmp fuel (Tree.node a cl cr)) := rfl
        rw [hstep]
        by_cases hstop : cmp a (if cmp b c then c else b) = true
        · rw [if_neg (by simp [hstop])]
          by_cases hcb : cmp c b = true
          · -- descend left
            rw [if_pos hcb]
            have hbc : cmp b c = false := hasym c b hcb
            rw [if_neg (by simp [hbc])] at hstop
            have hwl2 : weakShape (Tree.node a bl br) := ⟨hwbl.1, hwbl.2.1, hwbl.2.2⟩
            have hcnt : Tree.count (Tree.node a bl br) ≤ fuel := by
              simp only [Tree.count] at hc ⊢
              omega
            obtain ⟨hordu, hrootu⟩ := ih a bl br hcnt hobl hobr hwl2
            constructor
            · rw [ordered_node]
              refine ⟨?_, (rootOK_node cmp b c cl cr).mpr hbc, hordu, ?_⟩
              · -- rootOK b (result of the recursive call)
                cases hu : bubble_down_go cmp fuel (Tree.node a bl br) with
                | nil => exact rootOK_nil cmp b
                | node uv ul ur =>
                  rw [hu] at hrootu
                  rw [rootData_node] at hrootu
                  rw [rootOK_node]
                  rcases hrootu with huv | ⟨v, huv, hv⟩
                  · rw [Option.some.inj huv]
                    exact hasym a b hstop
                  · rw [Option.some.inj huv]
                    rw [belowValues_node] at hv
                    rcases List.mem_append.mp hv with hv | hv
                    · exact dom_of_ordered cmp hntr bl b hobl hbbl v hv
                    · exact dom_of_ordered cmp hntr br b hobr hbbr v hv
              · rw [ordered_node]
                exact ⟨hccl, hccr, hocl, hocr⟩
            · refine Or.inr ⟨b, rfl, ?_⟩
              rw [belowValues_node]
              simp [values_node]
          · -- descend right
            rw [if_neg hcb]
            have hca : cmp c a = false := by
              by_cases hbc : cmp b c = true
              · rw [if_pos hbc] at hstop
                exact hasym a c hstop
              · rw [if_neg hbc] at hstop
                cases hx : cmp c a with
                | false => rfl
                | true => exact absurd (htr c a b hx hstop) (by simp [bool_false hcb])
            have hwr2 : weakShape (Tree.node a cl cr) := ⟨hwcl.1, hwcl.2.1, hwcl.2.2⟩
            have hcnt : Tree.count (Tree.node a cl cr) ≤ fuel := by
              simp only [Tree.count] at hc ⊢
              omega
            obtain ⟨hordu, hrootu⟩ := ih a cl cr hcnt hocl hocr hwr2
            constructor
            · rw [ordered_node]
              refine ⟨(rootOK_node cmp c b bl br).mpr (bool_false hcb), ?_, ?_, hordu⟩
              · cases hu : bubble_down_go cmp fuel (Tree.node a cl cr) with
                | nil => exact rootOK_nil cmp c
                | node uv ul ur =>
                  rw [hu] at hrootu
                  rw [rootData_node] at hrootu
                  rw [rootOK_node]
                  rcases hrootu with huv | ⟨v, huv, hv⟩
                  · rw [Option.some.inj huv]
                    exact hca
                  · rw [Option.some.inj huv]
                    rw [belowValues_node] at hv
                    rcases List.mem_append.mp hv with hv | hv
                    · exact dom_of_ordered cmp hntr cl c hocl hccl v hv
                    · exact dom_of_ordered cmp hntr cr c hocr hccr v hv
              · rw [ordered_node]
                exact ⟨hbbl, hbbr, hobl, hobr⟩
            · refine Or.inr ⟨c, rfl, ?_⟩
              rw [belowValues_node]
              simp [values_node]
        · -- no violation against the candidate child: stop
          rw [if_pos (by simp [bool_false hstop])]
          have hcomp := bool_false hstop
          constructor
          · rw [ordered_node]
            by_cases hbc : cmp b c = true
            · rw [if_pos hbc] at hcomp
              have hab : cmp a b = false := by
                cases hx : cmp a b with
                | false => rfl
                | true => exact absurd (htr a b c hx hbc) (by simp [hcomp])
              refine ⟨(rootOK_node cmp a b bl br).mpr hab,
                (rootOK_node cmp a c cl cr).mpr hcomp, ?_, ?_⟩
              · rw [ordered_node]
                exact ⟨hbbl, hbbr, hobl, hobr⟩
              · rw [ordered_node]
                exact ⟨hccl, hccr, hocl, hocr⟩
            · rw [if_neg hbc] at hcomp
              have hac : cmp a c = false := hntr a b c hcomp (bool_false hbc)
              refine ⟨(rootOK_node cmp a b bl br).mpr hcomp,
                (rootOK_node cmp a c cl cr).mpr hac, ?_, ?_⟩
              · rw [ordered_node]
                exact ⟨hbbl, hbbr, hobl, hobr⟩
              · rw [ordered_node]
                exact ⟨hccl, hccr, hocl, hocr⟩
          · exact Or.inl rfl

/-! ### Shrinking the bound of a complete ordered tree keeps it ordered -/

theorem ordered_mk_shrink (cmp : α → α → Bool) (f : Nat → α) (n : Nat) :
    ∀ (fuel i : Nat), 1 ≤ i → n + 1 - i ≤ fuel →
      Ordered cmp (mkComplete f n i) = true →
      Ordered cmp (mkComplete f (n - 1) i) = true := by
  intro fuel
  induction fuel with
  | zero =>
    intro i hi hfuel _
    rw [@mkComplete_eq_nil _ f (n - 1) i (Or.inr (by omega))]
    rfl
  | succ fuel ih =>
    intro i hi hfuel hord
    by_cases hin : i ≤ n - 1
    · have hin2 : i ≤ n := by omega
      rw [mkComplete_eq_node f hi hin2, ordered_node] at hord
      obtain ⟨h1, h2, h3, h4⟩ := hord
      rw [mkComplete_eq_node f hi hin, ordered_node]
      refine ⟨?_, ?_, ih (2 * i) (by omega) (by omega) h3, ih (2 * i + 1) (by omega) (by omega) h4⟩
      · by_cases h5 : 2 * i ≤ n - 1
        · rw [mkComplete_eq_node f (by omega) h5]
          rw [mkComplete_eq_node f (by omega) (by omega : 2 * i ≤ n), rootOK_node] at h1
          rw [rootOK_node]
          exact h1
        · rw [@mkComplete_eq_nil _ f (n - 1) (2 * i) (Or.inr (by omega))]
          exact rootOK_nil cmp (f i)
      · by_cases h5 : 2 * i + 1 ≤ n - 1
        · rw [mkComplete_eq_node f (by omega) h5]
          rw [mkComplete_eq_node f (by omega) (by omega : 2 * i + 1 ≤ n), rootOK_node] at h2
          rw [rootOK_node]
          exact h2
        · rw [@mkComplete_eq_nil _ f (n - 1) (2 * i + 1) (Or.inr (by omega))]
          exact rootOK_nil cmp (f i)
    · rw [@mkComplete_eq_nil _ f (n - 1) i (Or.inr (by omega))]
      rfl

/-! ### Evaluating the operations on each invariant state -/

theorem heap_insert_on_empty (c : α → α → Bool) (x : α) :
    (Heap.mk Tree.nil 0 c).insert x =
      some (Heap.mk (Tree.node x Tree.nil Tree.nil) 1 c) := rfl

theorem heap_insert_on_broken (c : α → α → Bool) (x : α) :
    (Heap.mk Tree.nil 1 c).insert x = none := by
  simp only [Heap.insert, insert_leaf]
  rfl

theorem heap_pop_on_zero (h : Heap α) (hn : h.size = 0) : h.pop_top = none := by
  rw [Heap.pop_top, if_pos hn]

theorem heap_pop_on_broken (c : α → α → Bool) :
    (Heap.mk Tree.nil 1 c).pop_top = none := rfl

theorem heap_pop_on_one (a : α) (l r : Tree α) (c : α → α → Bool) :
    (Heap.mk (Tree.node a l r) 1 c).pop_top = some (a, Heap.mk Tree.nil 1 c) := rfl

theorem heap_insert_good (f : Nat → α) (n : Nat) (c : α → α → Bool) (x : α) (hn : 1 ≤ n) :
    ∃ t2, bubble_up_aux c (mkComplete (Function.update f (n + 1) x) (n + 1) 1)
        (get_dirlist (n + 1)) = some t2 ∧
      SameShape (mkComplete (Function.update f (n + 1) x) (n + 1) 1) t2 ∧
      (Heap.mk (mkComplete f n 1) n c).insert x = some (Heap.mk t2 (n + 1) c) := by
  have hds_ne : get_dirlist (n + 1) ≠ [] := by
    rw [get_dirlist_eq_specBinDirs]
    exact specBinDirs_nonempty (n + 1) (by omega)
  have hpos : posAfter 1 (get_dirlist (n + 1)) = n + 1 := by
    rw [get_dirlist_eq_specBinDirs]
    exact posAfter_specBinDirs (n + 1) (by omega)
  have hA : insert_leaf_aux (mkComplete f n 1) (Tree.node x Tree.nil Tree.nil)
      (get_dirlist (n + 1)) =
      some (mkComplete (Function.update f (n + 1) x) (n + 1) 1) :=
    insert_leaf_aux_mk f x n (get_dirlist (n + 1)) 1 (Nat.le_refl 1) hds_ne hpos
  obtain ⟨t2, hbu, hsh⟩ := bubble_up_aux_shape c x (get_dirlist (n + 1)) _ _ hA
  refine ⟨t2, hbu, hsh, ?_⟩
  simp only [Heap.insert, insert_leaf, bubble_up, hA, hbu,
    show ¬ (n + 1 = 1) by omega, show n + 1 > 1 by omega, if_true, if_false,
    ite_false, ite_true]

theorem heap_pop_top_good (f : Nat → α) (n : Nat) (c : α → α → Bool) (hn : 2 ≤ n) :
    (Heap.mk (mkComplete f n 1) n c).pop_top =
      some (f 1, Heap.mk (bubble_down c
        (mkComplete (Function.update f 1 (f (n / 2))) (n - 1) 1)) (n - 1) c) := by
  have hP : pop_leaf (mkComplete f n 1) (get_dirlist n) =
      some (f (n / 2), mkComplete f (n - 1) 1) := by
    apply pop_leaf_mk f n (get_dirlist n) 1 (Nat.le_refl 1)
    · rw [get_dirlist_eq_specBinDirs]
      exact specBinDirs_nonempty n hn
    · rw [get_dirlist_eq_specBinDirs]
      exact posAfter_specBinDirs n (by omega)
  have hc1 : mkComplete f (n - 1) (2 * 1) =
      mkComplete (Function.update f 1 (f (n / 2))) (n - 1) (2 * 1) := by
    apply mkComplete_congr _ _ _ _ _ (by omega)
    intro p hp
    have := anc_le hp
    exact ⟨(Function.update_noteq (by omega) _ f).symm, Iff.rfl⟩
  have hc2 : mkComplete f (n - 1) (2 * 1 + 1) =
      mkComplete (Function.update f 1 (f (n / 2))) (n - 1) (2 * 1 + 1) := by
    apply mkComplete_congr _ _ _ _ _ (by omega)
    intro p hp
    have := anc_le hp
    exact ⟨(Function.update_noteq (by omega) _ f).symm, Iff.rfl⟩
  have hset : set_root_data (mkComplete f (n - 1) 1) (f (n / 2)) =
      mkComplete (Function.update f 1 (f (n / 2))) (n - 1) 1 := by
    rw [mkComplete_eq_node f (Nat.le_refl 1) (by omega),
      mkComplete_eq_node (Function.update f 1 (f (n / 2))) (Nat.le_refl 1) (by omega)]
    simp only [set_root_data]
    rw [Function.update_same, hc1, hc2]
  have htree : mkComplete f n 1 =
      Tree.node (f 1) (mkComplete f n (2 * 1)) (mkComplete f n (2 * 1 + 1)) :=
    mkComplete_eq_node f (Nat.le_refl 1) (by omega)
  rw [htree] at hP
  simp only [Heap.pop_top, htree, hP, hset,
    show ¬ (n = 0) by omega, show ¬ (n = 1) by omega, if_false, ite_false]

/-! ### Preservation of the invariants -/

theorem invS_emptyWith (cmp : α → α → Bool) : InvS (Heap.emptyWith cmp) :=
  Or.inl ⟨rfl, rfl⟩

theorem invS_run_op {h h2 : Heap α} {op : HeapOp α}
    (hs : InvS h) (he : run_op h op = some h2) : InvS h2 := by
  obtain ⟨t0, n0, c0⟩ := h
  cases op with
  | ins x =>
    simp only [run_op] at he
    rcases hs with ⟨ht, hn⟩ | ⟨f, hn, ht⟩ | ⟨ht, hn⟩
    · simp only at ht hn
      subst ht
      subst hn
      rw [heap_insert_on_empty] at he
      have h2e := Option.some.inj he
      subst h2e
      refine Or.inr (Or.inl ⟨fun _ => x, by simp, ?_⟩)
      show Tree.node x Tree.nil Tree.nil = mkComplete (fun _ => x) 1 1
      rw [mkComplete_eq_node (fun _ => x) (Nat.le_refl 1) (Nat.le_refl 1),
        @mkComplete_eq_nil _ (fun _ => x) 1 (2 * 1) (Or.inr (by omega)),
        @mkComplete_eq_nil _ (fun _ => x) 1 (2 * 1 + 1) (Or.inr (by omega))]
    · simp only at ht hn
      subst ht
      obtain ⟨t2, hbu, hsh, hres⟩ := heap_insert_good f n0 c0 x hn
      rw [hres] at he
      have h2e := Option.some.inj he
      subst h2e
      obtain ⟨g, hg, hgf⟩ := same_shape_mk_exists (n0 + 1) (n0 + 1) 1
        (Function.update f (n0 + 1) x) t2 (Nat.le_refl 1) (by omega) hsh
      refine Or.inr (Or.inl ⟨g, ?_, hg⟩)
      show 1 ≤ n0 + 1
      omega
    · simp only at ht hn
      subst ht
      subst hn
      rw [heap_insert_on_broken] at he
      simp at he
  | pop =>
    simp only [run_op] at he
    rcases hs with ⟨ht, hn⟩ | ⟨f, hn, ht⟩ | ⟨ht, hn⟩
    · simp only at ht hn
      rw [heap_pop_on_zero _ hn] at he
      simp at he
    · simp only at ht hn
      subst ht
      by_cases hn1 : n0 = 1
      · subst hn1
        rw [mkComplete_eq_node f (Nat.le_refl 1) (Nat.le_refl 1)] at he
        rw [heap_pop_on_one] at he
        simp only [Option.map_some'] at he
        have h2e := Option.some.inj he
        subst h2e
        exact Or.inr (Or.inr ⟨rfl, rfl⟩)
      · rw [heap_pop_top_good f n0 c0 (by omega)] at he
        simp only [Option.map_some'] at he
        have h2e := Option.some.inj he
        subst h2e
        have hsh : SameShape (mkComplete (Function.update f 1 (f (n0 / 2))) (n0 - 1) 1)
            (bubble_down c0 (mkComplete (Function.update f 1 (f (n0 / 2))) (n0 - 1) 1)) :=
          bubble_down_go_shape c0 _ _
        obtain ⟨g, hg, hgf⟩ := same_shape_mk_exists (n0 - 1) (n0 - 1) 1
          (Function.update f 1 (f (n0 / 2))) _ (Nat.le_refl 1) (by omega) hsh
        refine Or.inr (Or.inl ⟨g, ?_, hg⟩)
        show 1 ≤ n0 - 1
        omega
    · simp only at ht hn
      subst ht
      subst hn
      rw [heap_pop_on_broken] at he
      simp at he

theorem invS_run_ops :
    ∀ (ops : List (HeapOp α)) (h h2 : Heap α),
      InvS h → run_ops h ops = some h2 → InvS h2 := by
  intro ops
  induction ops with
  | nil =>
    intro h h2 hs he
    simp only [run_ops] at he
    exact (Option.some.inj he) ▸ hs
  | cons op ops ih =>
    intro h h2 hs he
    simp only [run_ops] at he
    cases hop : run_op h op with
    | none => rw [hop] at he; simp at he
    | some h1 =>
      rw [hop] at he
      exact ih h1 h2 (invS_run_op hs hop) he

theorem invS_reachable {cmp : α → α → Bool} {h : Heap α}
    (hr : Reachable cmp h) : InvS h := by
  obtain ⟨ops, hops⟩ := hr
  exact invS_run_ops ops _ h (invS_emptyWith cmp) hops

theorem pop_top_compare {h : Heap α} {v : α} {h2 : Heap α}
    (he : h.pop_top = some (v, h2)) : h2.compare = h.compare := by
  simp only [Heap.pop_top] at he
  split at he
  · simp at he
  · split at he
    · simp at he
    · split at he
      · simp only [Option.some.injEq, Prod.mk.injEq] at he
        rw [← he.2]
      · split at he
        · simp at he
        · simp only [Option.some.injEq, Prod.mk.injEq] at he
          rw [← he.2]

theorem run_op_compare {h h2 : Heap α} {op : HeapOp α} (he : run_op h op = some h2) :
    h2.compare = h.compare := by
  cases op with
  | ins x =>
    simp only [run_op, Heap.insert] at he
    split at he
    · simp at he
    · split at he
      · split at he
        · simp at he
        · rw [← Option.some.inj he]
      · rw [← Option.some.inj he]
  | pop =>
    simp only [run_op] at he
    cases hp : h.pop_top with
    | none => rw [hp] at he; simp at he
    | some p =>
      obtain ⟨v, h3⟩ := p
      rw [hp] at he
      simp only [Option.map_some'] at he
      rw [← Option.some.inj he]
      exact pop_top_compare hp

theorem inv_order_run_op {cmp : α → α → Bool}
    (hasym : ∀ a b, cmp a b = true → cmp b a = false)
    (htr : ∀ a b c, cmp a b = true → cmp b c = true → cmp a c = true)
    (hntr : ∀ a b c, cmp a b = false → cmp b c = false → cmp a c = false)
    {h h2 : Heap α} {op : HeapOp α}
    (hs : InvS h) (hcmp : h.compare = cmp) (hord : Ordered cmp h.tree = true)
    (he : run_op h op = some h2) : Ordered cmp h2.tree = true := by
  obtain ⟨t0, n0, c0⟩ := h
  simp only at hcmp hord
  subst hcmp
  cases op with
  | ins x =>
    simp only [run_op] at he
    rcases hs with ⟨ht, hn⟩ | ⟨f, hn, ht⟩ | ⟨ht, hn⟩
    · simp only at ht hn
      subst ht
      subst hn
      rw [heap_insert_on_empty] at he
      have h2e := Option.some.inj he
      subst h2e
      show Ordered c0 (Tree.node x Tree.nil Tree.nil) = true
      rw [ordered_node]
      exact ⟨rootOK_nil c0 x, rootOK_nil c0 x, rfl, rfl⟩
    · simp only at ht hn
      subst ht
      obtain ⟨t2, hbu, hsh, hres⟩ := heap_insert_good f n0 c0 x hn
      rw [hres] at he
      have h2e := Option.some.inj he
      subst h2e
      show Ordered c0 t2 = true
      have hds_ne : get_dirlist (n0 + 1) ≠ [] := by
        rw [get_dirlist_eq_specBinDirs]
        exact specBinDirs_nonempty (n0 + 1) (by omega)
      have hpos : posAfter 1 (get_dirlist (n0 + 1)) = n0 + 1 := by
        rw [get_dirlist_eq_specBinDirs]
        exact posAfter_specBinDirs (n0 + 1) (by omega)
      have hA : insert_leaf_aux (mkComplete f n0 1) (Tree.node x Tree.nil Tree.nil)
          (get_dirlist (n0 + 1)) =
          some (mkComplete (Function.update f (n0 + 1) x) (n0 + 1) 1) :=
        insert_leaf_aux_mk f x n0 (get_dirlist (n0 + 1)) 1 (Nat.le_refl 1) hds_ne hpos
      have htree := mkComplete_eq_node f (Nat.le_refl 1) (show 1 ≤ n0 by omega)
      rw [htree] at hA hord
      obtain ⟨t2b, hbu2, _, hord2, _⟩ :=
        bubble_up_aux_main c0 hasym htr hntr x (get_dirlist (n0 + 1)) (f 1)
          (mkComplete f n0 (2 * 1)) (mkComplete f n0 (2 * 1 + 1)) _ hord hA
      rw [hbu] at hbu2
      rw [← Option.some.inj hbu2] at hord2
      exact hord2
    · simp only at ht hn
      subst ht
      subst hn
      rw [heap_insert_on_broken] at he
      simp at he
  | pop =>
    simp only [run_op] at he
    rcases hs with ⟨ht, hn⟩ | ⟨f, hn, ht⟩ | ⟨ht, hn⟩
    · simp only at ht hn
      rw [heap_pop_on_zero _ hn] at he
      simp at he
    · simp only at ht hn
      subst ht
      by_cases hn1 : n0 = 1
      · subst hn1
        rw [mkComplete_eq_node f (Nat.le_refl 1) (Nat.le_refl 1)] at he
        rw [heap_pop_on_one] at he
        simp only [Option.map_some'] at he
        have h2e := Option.some.inj he
        subst h2e
        show Ordered c0 Tree.nil = true
        rfl
      · rw [heap_pop_top_good f n0 c0 (by omega)] at he
        simp only [Option.map_some'] at he
        have h2e := Option.some.inj he
        subst h2e
        show Ordered c0 (bubble_down c0
          (mkComplete (Function.update f 1 (f (n0 / 2))) (n0 - 1) 1)) = true
        rw [mkComplete_eq_node f (Nat.le_refl 1) (show 1 ≤ n0 by omega),
          ordered_node] at hord
        obtain ⟨ho1, ho2, ho3, ho4⟩ := hord
        have hs3 : Ordered c0 (mkComplete f (n0 - 1) (2 * 1)) = true :=
          ordered_mk_shrink c0 f n0 n0 (2 * 1) (by omega) (by omega) ho3
        have hs4 : Ordered c0 (mkComplete f (n0 - 1) (2 * 1 + 1)) = true :=
          ordered_mk_shrink c0 f n0 n0 (2 * 1 + 1) (by omega) (by omega) ho4
        have hcg1 : mkComplete f (n0 - 1) (2 * 1) =
            mkComplete (Function.update f 1 (f (n0 / 2))) (n0 - 1) (2 * 1) := by
          apply mkComplete_congr _ _ _ _ _ (by omega)
          intro p hp
          have := anc_le hp
          exact ⟨(Function.update_noteq (by omega) _ f).symm, Iff.rfl⟩
        have hcg2 : mkComplete f (n0 - 1) (2 * 1 + 1) =
            mkComplete (Function.update f 1 (f (n0 / 2))) (n0 - 1) (2 * 1 + 1) := by
          apply mkComplete_congr _ _ _ _ _ (by omega)
          intro p hp
          have := anc_le hp
          exact ⟨(Function.update_noteq (by omega) _ f).symm, Iff.rfl⟩
        have hw : weakShape (mkComplete (Function.update f 1 (f (n0 / 2))) (n0 - 1) 1) :=
          weakShape_mk (Function.update f 1 (f (n0 / 2))) (n0 - 1) (n0 - 1) 1
            (Nat.le_refl 1) (by omega)
        have hT := mkComplete_eq_node (Function.update f 1 (f (n0 / 2)))
          (Nat.le_refl 1) (show 1 ≤ n0 - 1 by omega)
        rw [hT] at hw ⊢
        rw [bubble_down]
        exact (bubble_down_go_main c0 hasym htr hntr _ _ _ _ (Nat.le_refl _)
          (hcg1 ▸ hs3) (hcg2 ▸ hs4) hw).1
    · simp only at ht hn
      subst ht
      subst hn
      rw [heap_pop_on_broken] at he
      simp at he

theorem inv_run_op {cmp : α → α → Bool}
    (hasym : ∀ a b, cmp a b = true → cmp b a = false)
    (htr : ∀ a b c, cmp a b = true → cmp b c = true → cmp a c = true)
    (hntr : ∀ a b c, cmp a b = false → cmp b c = false → cmp a c = false)
    {h h2 : Heap α} {op : HeapOp α} (hi : Inv cmp h) (he : run_op h op = some h2) :
    Inv cmp h2 :=
  ⟨invS_run_op hi.1 he, (run_op_compare he).trans hi.2.1,
    inv_order_run_op hasym htr hntr hi.1 hi.2.1 hi.2.2 he⟩

theorem inv_run_ops {cmp : α → α → Bool}
    (hasym : ∀ a b, cmp a b = true → cmp b a = false)
    (htr : ∀ a b c, cmp a b = true → cmp b c = true → cmp a c = true)
    (hntr : ∀ a b c, cmp a b = false → cmp b c = false → cmp a c = false) :
    ∀ (ops : List (HeapOp α)) (h h2 : Heap α),
      Inv cmp h → run_ops h ops = some h2 → Inv cmp h2 := by
  intro ops
  induction ops with
  | nil =>
    intro h h2 hi he
    simp only [run_ops] at he
    exact (Option.some.inj he) ▸ hi
  | cons op ops ih =>
    intro h h2 hi he
    simp only [run_ops] at he
    cases hop : run_op h op with
    | none => rw [hop] at he; simp at he
    | some h1 =>
      rw [hop] at he
      exact ih h1 h2 (inv_run_op hasym htr hntr hi hop) he

theorem inv_emptyWith (cmp : α → α → Bool) : Inv cmp (Heap.emptyWith cmp) :=
  ⟨Or.inl ⟨rfl, rfl⟩, rfl, rfl⟩

theorem inv_reachable {cmp : α → α → Bool}
    (hasym : ∀ a b, cmp a b = true → cmp b a = false)
    (htr : ∀ a b c, cmp a b = true → cmp b c = true → cmp a c = true)
    (hntr : ∀ a b c, cmp a b = false → cmp b c = false → cmp a c = false)
    {h : Heap α} (hr : Reachable cmp h) : Inv cmp h := by
  obtain ⟨ops, hops⟩ := hr
  exact inv_run_ops hasym htr hntr ops _ h (inv_emptyWith cmp) hops

theorem consistent_gtNat : ConsistentPred gtNat := by
  refine ⟨?_, ?_, ?_⟩
  · intro a b h
    simp [gtNat] at h ⊢
    omega
  · intro a b c h1 h2
    simp [gtNat] at h1 h2 ⊢
    omega
  · intro a b c h1 h2
    simp [gtNat] at h1 h2 ⊢
    omega

/-- C1: for every heap built by any sequence of construction, insert and
pop_top operations with a pure, consistent predicate (consistency formalised
as `ConsistentPred`: the predicate is a strict order's violation test —
asymmetric, transitive, and with transitive negation, as the default `a > b`
is), after every operation, for every node `p` with a child `c` in the tree,
`predicate(p.value, c.value)` is false. -/
theorem claim_C1_order_invariant (cmp : α → α → Bool) (hc : ConsistentPred cmp)
    (h : Heap α) (hr : Reachable cmp h) : Ordered cmp h.tree = true :=
  (inv_reachable hc.1 hc.2.1 hc.2.2 hr).2.2

/-- Witness for C1: the concrete heap reached by inserting 5, 3, 8 into a
default-constructed heap satisfies the order invariant. -/
theorem claim_C1_order_invariant_witness :
    ConsistentPred gtNat ∧
      Ordered gtNat (Heap.mk (Tree.node 3 (Tree.node 5 Tree.nil Tree.nil)
        (Tree.node 8 Tree.nil Tree.nil)) 3 gtNat).tree = true :=
  ⟨consistent_gtNat,
    claim_C1_order_invariant gtNat consistent_gtNat _
      ⟨[HeapOp.ins 5, HeapOp.ins 3, HeapOp.ins 8], rfl⟩⟩

/-- C10: for every reachable heap with `size ≥ 1`, the value `get_top()`
returns is exactly the value `pop_top()` returns on the same state (both
read the root's stored data; when one of them stops fatally, so does the
other). -/
theorem claim_C10_top_agree (cmp : α → α → Bool) (h : Heap α)
    (hr : Reachable cmp h) (hs : 1 ≤ h.size) :
    Option.map Prod.fst h.pop_top = h.get_top := by
  have hinv := invS_reachable hr
  obtain ⟨t0, n0, c0⟩ := h
  rcases hinv with ⟨ht, hn⟩ | ⟨f, hn, ht⟩ | ⟨ht, hn⟩
  · simp only at ht hn
    subst hn
    simp at hs
  · simp only at ht hn
    subst ht
    by_cases hn1 : n0 = 1
    · subst hn1
      rw [mkComplete_eq_node f (Nat.le_refl 1) (Nat.le_refl 1)]
      rw [heap_pop_on_one]
      simp [Heap.get_top]
    · rw [heap_pop_top_good f n0 c0 (by omega)]
      rw [mkComplete_eq_node f (Nat.le_refl 1) (show 1 ≤ n0 by omega)]
      simp [Heap.get_top]
  · simp only at ht hn
    subst ht
    subst hn
    rw [heap_pop_on_broken]
    simp [Heap.get_top]

/-- Witness for C10 at the concrete reachable heap built by inserting 5
then 3 into a default-constructed heap. -/
theorem claim_C10_top_agree_witness :
    1 ≤ (Heap.mk (Tree.node 3 (Tree.node 5 Tree.nil Tree.nil) Tree.nil) 2 gtNat).size ∧
      Option.map Prod.fst
          (Heap.mk (Tree.node 3 (Tree.node 5 Tree.nil Tree.nil) Tree.nil) 2 gtNat).pop_top =
        (Heap.mk (Tree.node 3 (Tree.node 5 Tree.nil Tree.nil) Tree.nil) 2 gtNat).get_top :=
  ⟨by decide,
    claim_C10_top_agree gtNat _ ⟨[HeapOp.ins 5, HeapOp.ins 3], rfl⟩ (by decide)⟩

end HeapSpec
